import Mathlib

/-! Verification of the row-grouping engine in
`cpp/src/arrow/compute/row/grouper.cc`: the fallback grouper
(`GrouperImpl`), the fast grouper's mini-batch loop (`GrouperFastImpl`),
the row segmenters, and `Grouper::MakeGroupings`.

The per-column key encoders (`row_encoder_internal.h`) and the SwissTable
hash table live outside this file; where their behaviour matters it is
modelled from the spec, as noted on the corresponding definitions. -/

set_option autoImplicit false

namespace ArrowGrouper

/-- A key value of one column; `none` is a null.  Null equals null and
differs from every non-null value, which is exactly `Option` equality. -/
abbrev ColVal := Option Nat

/-- A key tuple: one value per key column.

Modelled from the spec: the per-column key encoders
(`row_encoder_internal.h`, not part of this file) encode a key tuple into
a byte string such that two key tuples are equal iff their encodings are
byte-equal ("Encoding is bijective with respect to logical key-tuple
equality").  `GrouperImpl` keys its map by the encoded string; we
therefore key the model by the key tuple itself. -/
abbrev Row := List ColVal

section GrouperDefs

variable {K : Type} [DecidableEq K]

/-- The group id of key `k` in the insertion-ordered key list `g`
(the first index at which `k` occurs), or `none` when `k` is absent.
This models `map_.find(key)` in `GrouperImpl`: the map stores, for each
distinct key, the value of `num_groups_` at its insertion, which equals
its position in insertion order. -/
def groupIdOf? : List K → K → Option Nat
  | [], _ => none
  | x :: xs, k => if x = k then some 0 else (groupIdOf? xs k).map (· + 1)

/-- Models `map_.emplace(key, num_groups_)` in `GrouperImpl::VisitKeys`:
a new key is appended with id `num_groups_` (the current number of
groups, i.e. the length of the key list); an existing key keeps its id. -/
def insertKey (g : List K) (k : K) : List K × Nat :=
  match groupIdOf? g k with
  | some i => (g, i)
  | none => (g ++ [k], g.length)

/-- Models the loop of `GrouperImpl::VisitKeys`: one map probe per row;
with `insertNewKeys` (populate/consume modes) new keys are inserted,
without it (lookup mode) a missing key yields `none`
(`visit_unknown_group`). -/
def visitKeysGo (insertNewKeys : Bool) (g : List K) : List K → List K × List (Option Nat)
  | [] => (g, [])
  | k :: ks =>
    if insertNewKeys then
      let p := insertKey g k
      let r := visitKeysGo insertNewKeys p.1 ks
      (r.1, some p.2 :: r.2)
    else
      let r := visitKeysGo insertNewKeys g ks
      (r.1, groupIdOf? g k :: r.2)

/-- `GrouperImpl::ConsumeImpl`, mode `kConsume`: insert all keys and
return one group id per row (the returned `UInt32Array` has no null
bitmap). -/
def consume (g : List K) (ks : List K) : List K × List Nat :=
  let r := visitKeysGo true g ks
  (r.1, r.2.map (fun o => o.getD 0))

/-- `GrouperImpl::ConsumeImpl`, mode `kPopulate`: insert all keys,
return no ids. -/
def populate (g : List K) (ks : List K) : List K :=
  (visitKeysGo true g ks).1

/-- `GrouperImpl::ConsumeImpl`, mode `kLookup`: do not insert; a found
key yields its id with validity `true`, a missing key yields the pair
`(0, false)` (`visit_unknown_group` appends value 0 and validity bit 0). -/
def lookup (g : List K) (ks : List K) : List K × List (Nat × Bool) :=
  let r := visitKeysGo false g ks
  (r.1, r.2.map (fun o => (o.getD 0, o.isSome)))

/-- The keys of `ks` that are new relative to `g`, each kept at its
first occurrence, in order of first appearance.  This is both the set of
keys `VisitKeys` inserts and (modelled from the spec) the set of keys
`SwissTable::map_new_keys` appends for one mini-batch. -/
def firstNewKeys (g : List K) : List K → List K
  | [] => []
  | k :: ks => if k ∈ g then firstNewKeys g ks else k :: firstNewKeys (g ++ [k]) ks

/-- `Grouper::num_groups()`: `GrouperImpl` returns `num_groups_` (the
map size), `GrouperFastImpl` returns `rows_.length()`; both equal the
number of distinct keys inserted, i.e. the length of the key list. -/
def numGroups (g : List K) : Nat := g.length

/-- Source `CheckAndCapLengthForConsume`: a negative offset is an
`Invalid` error; a negative length is replaced by
`batch_length - consume_offset`. -/
def checkAndCapLengthForConsume (batchLength consumeOffset consumeLength : Int) :
    Except String Int :=
  if consumeOffset < 0 then Except.error "invalid grouper consume offset"
  else Except.ok (if consumeLength < 0 then batchLength - consumeOffset else consumeLength)

/-- `ConsumeImpl` entry of both grouper implementations: check and cap
offset/length, slice the batch (`ExecBatch::Slice` clamps to the
available rows, modelled by drop/take), and process the slice.  The
source recurses on the slice with offset 0 and length -1, which caps to
the whole slice; that recursion is unfolded here. -/
def consumeWith (g : List K) (ks : List K) (offset length : Int) :
    Except String (List K × List Nat) :=
  match checkAndCapLengthForConsume (ks.length : Int) offset length with
  | Except.error e => Except.error e
  | Except.ok len => Except.ok (consume g ((ks.drop offset.toNat).take len.toNat))

/-- `Populate` goes through the same `ConsumeImpl` in mode `kPopulate`. -/
def populateWith (g : List K) (ks : List K) (offset length : Int) :
    Except String (List K) :=
  match checkAndCapLengthForConsume (ks.length : Int) offset length with
  | Except.error e => Except.error e
  | Except.ok len => Except.ok (populate g ((ks.drop offset.toNat).take len.toNat))

/-- `Lookup` goes through the same `ConsumeImpl` in mode `kLookup`. -/
def lookupWith (g : List K) (ks : List K) (offset length : Int) :
    Except String (List K × List (Nat × Bool)) :=
  match checkAndCapLengthForConsume (ks.length : Int) offset length with
  | Except.error e => Except.error e
  | Except.ok len => Except.ok (lookup g ((ks.drop offset.toNat).take len.toNat))

/-- One grouper call on a whole batch: populate (no ids returned) or
consume (id array returned). -/
inductive GOp (K : Type) where
  | populateOp (ks : List K)
  | consumeOp (ks : List K)
  deriving DecidableEq

/-- Run a sequence of populate/consume calls from state `g`, collecting
the id array returned by each consume call, in call order. -/
def runOps (g : List K) : List (GOp K) → List K × List (List Nat)
  | [] => (g, [])
  | GOp.populateOp ks :: ops => runOps (populate g ks) ops
  | GOp.consumeOp ks :: ops =>
      let r := runOps (consume g ks).1 ops
      (r.1, (consume g ks).2 :: r.2)

/-- The batches of the consume calls of a call sequence, in order. -/
def consumeBatches : List (GOp K) → List (List K)
  | [] => []
  | GOp.populateOp _ :: ops => consumeBatches ops
  | GOp.consumeOp ks :: ops => ks :: consumeBatches ops

/-- Whether a call is a consume call. -/
def isConsumeCall : GOp K → Bool
  | GOp.populateOp _ => false
  | GOp.consumeOp _ => true

/-- The grouper state after consuming a sequence of batches from a fresh
grouper. -/
def stateAfterBatches (S : List (List K)) : List K :=
  S.foldl (fun g bs => (consume g bs).1) []

/-- Modelled from the spec: one mini-batch of
`GrouperFastImpl::ConsumeImpl`.  `SwissTable::early_filter`/`find` give
each row whose key is already in the row table its stored group id;
`SwissTable::map_new_keys` de-duplicates the remaining rows by first
occurrence, appends their keys to the row table (`map_append_impl_`) and
assigns the next contiguous ids.  Net effect: the table grows by the
first-occurring new keys and every row receives the index of its key in
the grown table. -/
def minibatchStep (t : List K) (ms : List K) : List K × List Nat :=
  (t ++ firstNewKeys t ms,
    ms.map (fun k => (groupIdOf? (t ++ firstNewKeys t ms) k).getD 0))

/-- The mini-batch loop of `GrouperFastImpl::ConsumeImpl`: process the
batch as consecutive mini-batches and concatenate the per-mini-batch id
arrays.  The source chooses sizes starting at `minibatch_size_min_` and
doubling up to `minibatch_size_max_`; here the split is arbitrary, so
the theorems cover every mini-batch size. -/
def fastConsume (t : List K) : List (List K) → List K × List Nat
  | [] => (t, [])
  | ms :: rest =>
      let s := minibatchStep t ms
      let r := fastConsume s.1 rest
      (r.1, s.2 ++ r.2)

/-- A sequence of consume calls of the fast grouper; each batch is given
as its list of mini-batches. -/
def runFast (t : List K) : List (List (List K)) → List K × List (List Nat)
  | [] => (t, [])
  | chunks :: rest =>
      let s := fastConsume t chunks
      let r := runFast s.1 rest
      (r.1, s.2 :: r.2)

/-- A sequence of consume calls of the fallback grouper. -/
def runConsumeSeq (g : List K) : List (List K) → List K × List (List Nat)
  | [] => (g, [])
  | bs :: rest =>
      let s := consume g bs
      let r := runConsumeSeq s.1 rest
      (r.1, s.2 :: r.2)

end GrouperDefs

/-- Source `struct Segment` (grouper.h): a run of rows within a batch. -/
structure Segment where
  offset : Nat
  length : Nat
  isOpenEnd : Bool
  extendsPrev : Bool
  deriving DecidableEq, Inhabited

/-- Source `MakeSegment(batch_length, offset, length, extends)`:
`Segment{offset, length, offset + length >= batch_length, extends}`. -/
def MakeSegment (batchLength offset length : Nat) (ext : Bool) : Segment :=
  ⟨offset, length, decide (batchLength ≤ offset + length), ext⟩

/-- `NoKeysSegmenter::GetSegments`: an empty batch yields no segments,
any other batch yields one segment `[0, batch.length)` with
`extends = kDefaultExtends = true`. -/
def noKeysGetSegments (batchLength : Nat) : List Segment :=
  if batchLength = 0 then []
  else [MakeSegment batchLength 0 (batchLength - 0) true]

/-- `kNoGroupId = std::numeric_limits<uint32_t>::max()`: the sentinel
stored in `AnyKeysSegmenter::save_group_id_` meaning "no previous
batch". -/
def kNoGroupId : Nat := 4294967295

/-- The run-scanning loop of `AnyKeysSegmenter::GetSegments`: starting
from `current_group_offset = co` and the given cursor, emit a segment
whenever `group_ids[cursor] != group_ids[current_group_offset]`, and a
final segment when the cursor reaches the end.  Each segment's extends
flag is `ext` for the segment starting at offset 0 and `false`
otherwise. -/
def segmentScanGo (ids : List Nat) (batchLen : Nat) (ext : Bool)
    (co cursor : Nat) : List Segment :=
  if h : cursor < ids.length then
    if ids.getD cursor 0 = ids.getD co 0 then
      segmentScanGo ids batchLen ext co (cursor + 1)
    else
      MakeSegment batchLen co (cursor - co) (if co = 0 then ext else false) ::
        segmentScanGo ids batchLen ext cursor (cursor + 1)
  else
    [MakeSegment batchLen co (cursor - co) (if co = 0 then ext else false)]
termination_by ids.length - cursor

section SegmenterDefs

variable {K : Type} [DecidableEq K]

/-- `AnyKeysSegmenter` state: its private grouper and
`save_group_id_`. -/
structure SegState (K : Type) where
  grouper : List K
  saveGroupId : Nat

/-- A fresh `AnyKeysSegmenter`: empty grouper, `save_group_id_ =
kNoGroupId`. -/
def initialSegState : SegState K := ⟨[], kNoGroupId⟩

/-- `AnyKeysSegmenter::GetSegments`: an empty batch returns no segments
and leaves the state unchanged.  Otherwise: if `save_group_id_` is not
the sentinel, consume the first row on the current grouper
(`MapGroupIdAt`) and set `extends` to whether its id equals
`save_group_id_`; then reset the grouper, consume the whole batch from
scratch, scan the id array for runs, and save the last row's id. -/
def anyKeysGetSegments (st : SegState K) (ks : List K) :
    SegState K × List Segment :=
  if ks.isEmpty then (st, [])
  else
    let ext :=
      if st.saveGroupId ≠ kNoGroupId then
        decide ((consume st.grouper (ks.take 1)).2.getD 0 0 = st.saveGroupId)
      else true
    let r := consume ([] : List K) ks
    (⟨r.1, r.2.getD (ks.length - 1) 0⟩, segmentScanGo r.2 ks.length ext 0 1)

/-- Feed a sequence of batches to an `AnyKeysSegmenter`, collecting each
batch's segment list. -/
def runSegmenter (st : SegState K) : List (List K) → SegState K × List (List Segment)
  | [] => (st, [])
  | bs :: rest =>
      let s := anyKeysGetSegments st bs
      let r := runSegmenter s.1 rest
      (r.1, s.2 :: r.2)

/-- The last key of the last non-empty batch of a sequence, starting
from `prev` (used for the very first batches). -/
def lastKeyAcc (prev : Option K) : List (List K) → Option K
  | [] => prev
  | bs :: rest => lastKeyAcc (if bs.isEmpty then prev else bs.getLast?) rest

/-- Segments tile `[start, L)` contiguously with positive lengths. -/
def SegChain (L : Nat) : Nat → List Segment → Prop
  | start, [] => start = L
  | start, s :: rest => s.offset = start ∧ 0 < s.length ∧ SegChain L (s.offset + s.length) rest

/-- Within every segment all rows have the key of the segment's first
row. -/
def WithinEqual (ks : List K) (segs : List Segment) : Prop :=
  ∀ s ∈ segs, ∀ a, s.offset ≤ a → a < s.offset + s.length →
    ks.get? a = ks.get? s.offset

/-- Consecutive segments start with different keys (runs are maximal). -/
def RunBoundaries (ks : List K) : List Segment → Prop
  | s₁ :: s₂ :: rest =>
      ks.get? s₂.offset ≠ ks.get? s₁.offset ∧ RunBoundaries ks (s₂ :: rest)
  | _ => True

/-- Full correctness of one batch's emitted segments: contiguous cover
of the batch by maximal equal-key runs; `is_open_end` iff the segment
reaches the batch end; `extends_previous` false on non-first segments
and, on the first, equal to whether the batch's first key equals the
last key of the preceding non-empty batch (`true` when there is none). -/
def SegsSpec (prev : Option K) (ks : List K) (segs : List Segment) : Prop :=
  SegChain ks.length 0 segs ∧
    WithinEqual ks segs ∧
    RunBoundaries ks segs ∧
    (∀ s ∈ segs, s.isOpenEnd = true ↔ s.offset + s.length = ks.length) ∧
    (∀ t, 0 < t → t < segs.length → (segs.getD t default).extendsPrev = false) ∧
    (segs ≠ [] →
      (segs.getD 0 default).extendsPrev =
        (match prev with
         | none => true
         | some k => decide (ks.get? 0 = some k)))

/-- The segmenter-state invariant maintained across batches: before any
non-empty batch the grouper is fresh and the saved id is the sentinel;
afterwards the grouper holds the previous batch's distinct keys and the
saved id is the (valid, sub-sentinel) index of the previous batch's last
key. -/
def SegInv (st : SegState K) : Option K → Prop
  | none => st.grouper = [] ∧ st.saveGroupId = kNoGroupId
  | some k =>
      st.grouper.Nodup ∧ st.saveGroupId < st.grouper.length ∧
        st.grouper.get? st.saveGroupId = some k ∧ st.saveGroupId < kNoGroupId

end SegmenterDefs

/-- The counting pass of `Grouper::MakeGroupings`:
`raw_offsets[ids[i]] += 1` for each row.  The int32 offsets buffer is
modelled as a function `Nat -> Nat`. -/
def countsGo : List Nat → (Nat → Nat) → Nat → Nat
  | [], c => c
  | v :: rest, c => countsGo rest (Function.update c v (c v + 1))

/-- The in-place prefix-sum pass of `Grouper::MakeGroupings`: for each
id in `[0, num_groups)`: `offset = raw[id]; raw[id] = length;
length += offset`.  Arguments: current buffer, running length, next id,
remaining iteration count. -/
def prefixGo : (Nat → Nat) → Nat → Nat → Nat → (Nat → Nat) × Nat
  | raw, len, _, 0 => (raw, len)
  | raw, len, id, n + 1 => prefixGo (Function.update raw id len) (len + raw id) (id + 1) n

/-- The placement pass of `Grouper::MakeGroupings`:
`raw_sort_indices[raw_offsets[ids[i]]++] = i`. -/
def placeGo : List Nat → Nat → (Nat → Nat) → (Nat → Nat) → (Nat → Nat) × (Nat → Nat)
  | [], _, c, o => (c, o)
  | v :: rest, i, c, o =>
      placeGo rest (i + 1) (Function.update c v (c v + 1)) (Function.update o (c v) i)

/-- The counts buffer after the counting pass (zero-initialized by
`memset`). -/
def mgCounts (vals : List Nat) : Nat → Nat := countsGo vals (fun _ => 0)

/-- The offsets buffer after the prefix pass and the final
`raw_offsets[num_groups] = length` write. -/
def mgOffs (vals : List Nat) (numGroups : Nat) : Nat → Nat :=
  Function.update (prefixGo (mgCounts vals) 0 0 numGroups).1 numGroups
    (prefixGo (mgCounts vals) 0 0 numGroups).2

/-- `Grouper::MakeGroupings` after the null check: counting pass, prefix
pass, `raw_offsets[num_groups] = length`, copy of the offsets buffer,
placement pass into the copy; returns (value offsets, sort indices).
The returned offsets are the unmutated pre-placement copy. -/
def mgRun (vals : List Nat) (numGroups : Nat) : List Nat × List Nat :=
  ((List.range (numGroups + 1)).map (mgOffs vals numGroups),
    (List.range vals.length).map (placeGo vals 0 (mgOffs vals numGroups) (fun _ => 0)).2)

/-- `Grouper::MakeGroupings`: returns `Invalid` when the id array
contains nulls; an id `>= num_groups` is guarded only by `DCHECK`
(debug assertions), so release builds proceed.  For `id == num_groups`
every buffer write is still in bounds (the offsets buffer has
`num_groups + 1` slots), so the release behaviour is well defined. -/
def makeGroupings (ids : List (Option Nat)) (numGroups : Nat) :
    Except String (List Nat × List Nat) :=
  if ids.any (fun x => x.isNone) then Except.error "MakeGroupings with null ids"
  else Except.ok (mgRun (ids.map (fun x => x.getD 0)) numGroups)

/-- The positions of `vals` holding group `g`, in ascending order. -/
def posIn (l : List Nat) (g : Nat) : List Nat :=
  (List.range l.length).filter (fun i => l.getD i 0 = g)

/-- `GrouperImpl`'s private state at byte level: the key-string map, the
`offsets_` vector (initialized to `{0}`), the `key_bytes_` buffer and
`num_groups_`. -/
structure GrouperImplB where
  map : List (List Nat × Nat)
  offsets : List Nat
  keyBytes : List Nat
  numGroups : Nat
  deriving DecidableEq

/-- A freshly constructed `GrouperImpl`: `offsets_ = {0}`. -/
def GrouperImplB.initial : GrouperImplB := ⟨[], [0], [], 0⟩

/-- `GrouperImpl::Reset`: `map_.clear(); offsets_.clear();
key_bytes_.clear(); num_groups_ = 0` -- note `offsets_` is left empty,
not `{0}`. -/
def GrouperImplB.reset (_ : GrouperImplB) : GrouperImplB := ⟨[], [], [], 0⟩

/-- `map_.find(key)` on the encoded-key map. -/
def lookupAssoc : List (List Nat × Nat) → List Nat → Option Nat
  | [], _ => none
  | e :: rest, k => if e.1 = k then some e.2 else lookupAssoc rest k

/-- The insert branch of `GrouperImpl::VisitKeys` at byte level:
`map_.emplace(key, num_groups_)`; on insertion `num_groups_` is bumped
and, when `key_length > 0`, `key_bytes_` grows by the key and
`offsets_` gets `next_key_offset + key_length` pushed (the key's end
offset). -/
def insertB (st : GrouperImplB) (key : List Nat) : GrouperImplB × Nat :=
  match lookupAssoc st.map key with
  | some gid => (st, gid)
  | none =>
      let gid := st.numGroups
      if 0 < key.length then
        (⟨st.map ++ [(key, gid)],
          st.offsets ++ [st.keyBytes.length + key.length],
          st.keyBytes ++ key, gid + 1⟩, gid)
      else (⟨st.map ++ [(key, gid)], st.offsets, st.keyBytes, gid + 1⟩, gid)

/-- Modelled from the spec: `FixedWidthKeyEncoder` for a single
fixed-width key column of byte width 1 ("Nullness is encoded as a bit in
a per-row null prefix"): one validity byte (1 valid / 0 null) followed
by the payload byte. -/
def encodeFixed1 (v : Option Nat) : List Nat :=
  match v with
  | none => [0, 0]
  | some b => [1, b]

/-- Modelled from the spec: the matching fixed-width decoder, reading a
key image at byte offset `p` of the key buffer. -/
def decodeFixed1 (bytes : List Nat) (p : Nat) : Option Nat :=
  if bytes.getD p 0 = 1 then some (bytes.getD (p + 1) 0) else none

/-- `GrouperImpl::ConsumeImpl` (mode `kConsume`) for a single width-1
fixed-width key column, at byte level: encode each row, then
`VisitKeys` with `insert_new_keys = true`. -/
def consumeB (st : GrouperImplB) : List (Option Nat) → GrouperImplB × List Nat
  | [] => (st, [])
  | r :: rs =>
      let p := insertB st (encodeFixed1 r)
      let q := consumeB p.1 rs
      (q.1, p.2 :: q.2)

/-- `GrouperImpl::GetUniques` for the same single column:
`key_buf_ptrs[i] = key_bytes_.data() + offsets_[i]`, then the decoder
reads each key image at its pointer. -/
def getUniquesB (st : GrouperImplB) : List (Option Nat) :=
  (List.range st.numGroups).map (fun i => decodeFixed1 st.keyBytes (st.offsets.getD i 0))

section GrouperTheorems

variable {K : Type} [DecidableEq K]

theorem groupIdOf?_eq_none {g : List K} {k : K} : groupIdOf? g k = none ↔ k ∉ g := by
  induction g with
  | nil => simp [groupIdOf?]
  | cons x xs ih =>
    by_cases hx : x = k
    · simp [groupIdOf?, hx]
    · simp only [groupIdOf?, if_neg hx, Option.map_eq_none', List.mem_cons]
      constructor
      · intro h hk
        rcases hk with hk | hk
        · exact hx hk.symm
        · exact (ih.mp h) hk
      · intro h
        exact ih.mpr (fun hk => h (Or.inr hk))

theorem groupIdOf?_isSome {g : List K} {k : K} : (groupIdOf? g k).isSome = true ↔ k ∈ g := by
  rcases h : groupIdOf? g k with _ | i
  · simpa using groupIdOf?_eq_none.mp h
  · simp only [Option.isSome_some, true_iff]
    by_contra hk
    rw [groupIdOf?_eq_none.mpr hk] at h
    exact Option.noConfusion h

theorem groupIdOf?_lt {g : List K} {k : K} {i : Nat} (h : groupIdOf? g k = some i) :
    i < g.length := by
  induction g generalizing i with
  | nil => exact absurd h (by simp [groupIdOf?])
  | cons x xs ih =>
    by_cases hx : x = k
    · simp only [groupIdOf?, if_pos hx, Option.some.injEq] at h
      simp only [List.length_cons]
      omega
    · simp only [groupIdOf?, if_neg hx, Option.map_eq_some'] at h
      rcases h with ⟨j, hj, hji⟩
      have := ih hj
      simp only [List.length_cons]
      omega

theorem groupIdOf?_get? {g : List K} {k : K} {i : Nat} (h : groupIdOf? g k = some i) :
    g.get? i = some k := by
  induction g generalizing i with
  | nil => exact absurd h (by simp [groupIdOf?])
  | cons x xs ih =>
    by_cases hx : x = k
    · simp only [groupIdOf?, if_pos hx, Option.some.injEq] at h
      subst h
      simp [hx]
    · simp only [groupIdOf?, if_neg hx, Option.map_eq_some'] at h
      rcases h with ⟨j, hj, hji⟩
      have : i = j + 1 := by omega
      subst this
      simpa using ih hj

theorem groupIdOf?_inj {g : List K} {k₁ k₂ : K} {i : Nat}
    (h₁ : groupIdOf? g k₁ = some i) (h₂ : groupIdOf? g k₂ = some i) : k₁ = k₂ := by
  have e₁ := groupIdOf?_get? h₁
  have e₂ := groupIdOf?_get? h₂
  rw [e₁] at e₂
  exact Option.some.inj e₂

theorem groupIdOf?_append_of_mem {g t : List K} {k : K} (h : k ∈ g) :
    groupIdOf? (g ++ t) k = groupIdOf? g k := by
  induction g with
  | nil => simp at h
  | cons x xs ih =>
    by_cases hx : x = k
    · simp [groupIdOf?, hx]
    · have hk : k ∈ xs := by
        rcases List.mem_cons.mp h with h' | h'
        · exact absurd h'.symm hx
        · exact h'
      simp [groupIdOf?, hx, ih hk]

theorem groupIdOf?_append_of_not_mem {g t : List K} {k : K} (h : k ∉ g) :
    groupIdOf? (g ++ t) k = (groupIdOf? t k).map (· + g.length) := by
  induction g with
  | nil =>
    rcases ho : groupIdOf? t k with _ | j <;> simp [ho]
  | cons x xs ih =>
    have hx : x ≠ k := fun e => h (by simp [e])
    have hk : k ∉ xs := fun e => h (by simp [e])
    simp only [List.cons_append, groupIdOf?, if_neg hx, List.length_cons, List.append_eq]
    rw [ih hk]
    rcases ho : groupIdOf? t k with _ | j <;> simp [Nat.add_assoc]

theorem groupIdOf?_of_nodup_get? {g : List K} {k : K} {i : Nat}
    (hn : g.Nodup) (h : g.get? i = some k) : groupIdOf? g k = some i := by
  induction g generalizing i with
  | nil => simp at h
  | cons x xs ih =>
    rcases i with _ | j
    · simp only [List.get?] at h
      have hx : x = k := Option.some.inj h
      simp [groupIdOf?, hx]
    · simp only [List.get?] at h
      have hk : k ∈ xs := List.get?_mem h
      have hx : x ≠ k := by
        intro e
        subst e
        exact (List.nodup_cons.mp hn).1 hk
      simp [groupIdOf?, hx, ih (List.nodup_cons.mp hn).2 h]

theorem insertKey_of_some {g : List K} {k : K} {i : Nat} (h : groupIdOf? g k = some i) :
    insertKey g k = (g, i) := by
  simp [insertKey, h]

theorem insertKey_of_not_mem {g : List K} {k : K} (h : k ∉ g) :
    insertKey g k = (g ++ [k], g.length) := by
  simp [insertKey, groupIdOf?_eq_none.mpr h]

theorem insertKey_groupIdOf?_fst (g : List K) (k : K) :
    groupIdOf? (insertKey g k).1 k = some (insertKey g k).2 := by
  rcases h : groupIdOf? g k with _ | i
  · have hk : k ∉ g := groupIdOf?_eq_none.mp h
    rw [insertKey_of_not_mem hk]
    rw [show ((g ++ [k], g.length) : List K × Nat).1 = g ++ [k] from rfl]
    rw [groupIdOf?_append_of_not_mem hk]
    simp [groupIdOf?]
  · rw [insertKey_of_some h]
    exact h

theorem visitKeysGo_snd_length (b : Bool) (g : List K) (ks : List K) :
    (visitKeysGo b g ks).2.length = ks.length := by
  induction ks generalizing g with
  | nil => simp [visitKeysGo]
  | cons k ks ih =>
    rcases b <;> simp [visitKeysGo, ih]

theorem visitKeysGo_false_fst (g : List K) (ks : List K) :
    (visitKeysGo false g ks).1 = g := by
  induction ks with
  | nil => rfl
  | cons k ks ih => simp [visitKeysGo, ih]

theorem visitKeysGo_false_snd (g : List K) (ks : List K) :
    (visitKeysGo false g ks).2 = ks.map (groupIdOf? g) := by
  induction ks with
  | nil => rfl
  | cons k ks ih => simp [visitKeysGo, ih]

theorem visitKeysGo_true_fst (g : List K) (ks : List K) :
    (visitKeysGo true g ks).1 = g ++ firstNewKeys g ks := by
  induction ks generalizing g with
  | nil => simp [visitKeysGo, firstNewKeys]
  | cons k ks ih =>
    by_cases hk : k ∈ g
    · rcases h : groupIdOf? g k with _ | i
      · exact absurd hk (groupIdOf?_eq_none.mp h)
      · simp [visitKeysGo, insertKey_of_some h, ih, firstNewKeys, hk]
    · simp only [visitKeysGo, if_true, insertKey_of_not_mem hk, firstNewKeys, if_neg hk]
      rw [ih]
      simp

theorem visitKeysGo_true_snd (g : List K) (ks : List K) :
    (visitKeysGo true g ks).2 =
      ks.map (fun k => groupIdOf? (visitKeysGo true g ks).1 k) := by
  induction ks generalizing g with
  | nil => rfl
  | cons k ks ih =>
    have hstep : visitKeysGo true g (k :: ks) =
        ((visitKeysGo true (insertKey g k).1 ks).1,
          some (insertKey g k).2 :: (visitKeysGo true (insertKey g k).1 ks).2) := by
      simp [visitKeysGo]
    rw [hstep]
    simp only [List.map_cons]
    have hhead : groupIdOf? (visitKeysGo true (insertKey g k).1 ks).1 k
        = some (insertKey g k).2 := by
      have h1 := insertKey_groupIdOf?_fst g k
      have hmem : k ∈ (insertKey g k).1 := List.get?_mem (groupIdOf?_get? h1)
      rw [visitKeysGo_true_fst, groupIdOf?_append_of_mem hmem, h1]
    rw [hhead, ih]

theorem mem_firstNewKeys {g : List K} {ks : List K} {x : K} :
    x ∈ firstNewKeys g ks ↔ x ∈ ks ∧ x ∉ g := by
  induction ks generalizing g with
  | nil => simp [firstNewKeys]
  | cons k ks ih =>
    by_cases hk : k ∈ g
    · simp only [firstNewKeys, if_pos hk, ih, List.mem_cons]
      constructor
      · rintro ⟨h1, h2⟩
        exact ⟨Or.inr h1, h2⟩
      · rintro ⟨h1 | h1, h2⟩
        · subst h1
          exact absurd hk h2
        · exact ⟨h1, h2⟩
    · simp only [firstNewKeys, if_neg hk, List.mem_cons, ih, List.mem_append,
        List.mem_singleton]
      constructor
      · rintro (rfl | ⟨h1, h2⟩)
        · exact ⟨Or.inl rfl, hk⟩
        · refine ⟨Or.inr h1, fun hg => h2 (Or.inl hg)⟩
      · rintro ⟨rfl | h1, h2⟩
        · exact Or.inl rfl
        · by_cases hx : x = k
          · exact Or.inl hx
          · exact Or.inr ⟨h1, by simp [h2, hx]⟩

theorem nodup_append_firstNewKeys {g : List K} (ks : List K) (hg : g.Nodup) :
    (g ++ firstNewKeys g ks).Nodup := by
  induction ks generalizing g with
  | nil => simpa [firstNewKeys] using hg
  | cons k ks ih =>
    by_cases hk : k ∈ g
    · simpa [firstNewKeys, hk] using ih hg
    · have hg' : (g ++ [k]).Nodup := by
        simp [List.nodup_append, hg, hk]
      have := ih hg'
      simpa [firstNewKeys, hk, List.append_assoc] using this

theorem consume_fst_eq (g : List K) (ks : List K) :
    (consume g ks).1 = g ++ firstNewKeys g ks :=
  visitKeysGo_true_fst g ks

theorem consume_snd_eq (g : List K) (ks : List K) :
    (consume g ks).2 = ks.map (fun k => (groupIdOf? ((consume g ks).1) k).getD 0) := by
  show (visitKeysGo true g ks).2.map (fun o => o.getD 0) = _
  rw [visitKeysGo_true_snd]
  rw [List.map_map]
  rfl

theorem consume_snd_length (g : List K) (ks : List K) :
    (consume g ks).2.length = ks.length := by
  show ((visitKeysGo true g ks).2.map (fun o => o.getD 0)).length = _
  simp [visitKeysGo_snd_length]

theorem mem_consume_fst {g : List K} {ks : List K} {x : K} :
    x ∈ (consume g ks).1 ↔ x ∈ g ∨ x ∈ ks := by
  rw [consume_fst_eq]
  simp only [List.mem_append, mem_firstNewKeys]
  constructor
  · rintro (h | ⟨h, _⟩)
    · exact Or.inl h
    · exact Or.inr h
  · rintro (h | h)
    · exact Or.inl h
    · by_cases hx : x ∈ g
      · exact Or.inl hx
      · exact Or.inr ⟨h, hx⟩

theorem consume_fst_nodup {g : List K} (ks : List K) (hg : g.Nodup) :
    (consume g ks).1.Nodup := by
  rw [consume_fst_eq]
  exact nodup_append_firstNewKeys ks hg

theorem get?_eq_some_getD {α : Type} (l : List α) (d : α) {i : Nat} (h : i < l.length) :
    l.get? i = some (l.getD i d) := by
  rcases h' : l.get? i with _ | v
  · have := List.get?_eq_none.mp h'
    omega
  · rw [List.getD_eq_get?, h']
    rfl

theorem consume_snd_get? (g : List K) (ks : List K) (i : Nat) :
    (consume g ks).2.get? i =
      (ks.get? i).map (fun k => (groupIdOf? ((consume g ks).1) k).getD 0) := by
  rw [consume_snd_eq, List.get?_map]

/-- Each consumed row's id is the index of its key in the final key list. -/
theorem consume_getD_some (g : List K) (ks : List K) (d : K) {i : Nat}
    (hi : i < ks.length) :
    ∃ a, groupIdOf? ((consume g ks).1) (ks.getD i d) = some a ∧
      (consume g ks).2.getD i 0 = a := by
  have hk : ks.get? i = some (ks.getD i d) := get?_eq_some_getD ks d hi
  have hmem : ks.getD i d ∈ (consume g ks).1 :=
    mem_consume_fst.mpr (Or.inr (List.get?_mem hk))
  rcases Option.isSome_iff_exists.mp (groupIdOf?_isSome.mpr hmem) with ⟨a, ha⟩
  refine ⟨a, ha, ?_⟩
  rw [List.getD_eq_get?, consume_snd_get?, hk]
  simp only [Option.map_some', Option.getD_some, ha]

theorem consume_ids_eq_iff (g : List K) (ks : List K) (d : K) {i j : Nat}
    (hi : i < ks.length) (hj : j < ks.length) :
    (consume g ks).2.getD i 0 = (consume g ks).2.getD j 0 ↔
      ks.getD i d = ks.getD j d := by
  rcases consume_getD_some g ks d hi with ⟨a, ha, hia⟩
  rcases consume_getD_some g ks d hj with ⟨b, hb, hjb⟩
  rw [hia, hjb]
  constructor
  · intro hab
    subst hab
    exact groupIdOf?_inj ha hb
  · intro hk
    rw [hk] at ha
    rw [ha] at hb
    exact Option.some.inj hb

theorem consume_cons (g : List K) (k : K) (ks : List K) :
    consume g (k :: ks) =
      ((consume (insertKey g k).1 ks).1,
        (insertKey g k).2 :: (consume (insertKey g k).1 ks).2) := by
  simp [consume, visitKeysGo]

theorem consume_ids_lt (g : List K) (ks : List K) :
    ∀ a ∈ (consume g ks).2, a < (consume g ks).1.length := by
  intro a ha
  rw [consume_snd_eq] at ha
  rcases List.mem_map.mp ha with ⟨k, hk, hfk⟩
  have hmem : k ∈ (consume g ks).1 := mem_consume_fst.mpr (Or.inr hk)
  rcases Option.isSome_iff_exists.mp (groupIdOf?_isSome.mpr hmem) with ⟨b, hb⟩
  rw [hb] at hfk
  simp only [Option.getD_some] at hfk
  subst hfk
  exact groupIdOf?_lt hb

/-- Every group id created on top of `g` during one consume call is
returned by that call: the ids are assigned contiguously. -/
theorem consume_new_ids_mem (g : List K) (ks : List K) :
    ∀ p, g.length ≤ p → p < (consume g ks).1.length → p ∈ (consume g ks).2 := by
  induction ks generalizing g with
  | nil =>
    intro p hp hlt
    simp only [consume, visitKeysGo] at hlt
    omega
  | cons k ks ih =>
    intro p hp hlt
    rw [consume_cons] at hlt ⊢
    by_cases hk : k ∈ g
    · rcases Option.isSome_iff_exists.mp (groupIdOf?_isSome.mpr hk) with ⟨i, hi⟩
      rw [insertKey_of_some hi] at hlt ⊢
      exact List.mem_cons_of_mem _ (ih g p hp hlt)
    · rw [insertKey_of_not_mem hk] at hlt ⊢
      rcases Nat.eq_or_lt_of_le hp with rfl | hgt
      · exact List.mem_cons_self _ _
      · have : (g ++ [k]).length ≤ p := by
          simp only [List.length_append, List.length_cons, List.length_nil]
          omega
        exact List.mem_cons_of_mem _ (ih (g ++ [k]) p this hlt)

theorem populate_fst_eq (g : List K) (ks : List K) :
    populate g ks = g ++ firstNewKeys g ks :=
  visitKeysGo_true_fst g ks

theorem runOps_fst_extend (g : List K) (ops : List (GOp K)) :
    ∃ t, (runOps g ops).1 = g ++ t := by
  induction ops generalizing g with
  | nil => exact ⟨[], by simp [runOps]⟩
  | cons op ops ih =>
    rcases op with ks | ks
    · rcases ih (populate g ks) with ⟨t, ht⟩
      refine ⟨firstNewKeys g ks ++ t, ?_⟩
      show (runOps (populate g ks) ops).1 = _
      rw [ht, populate_fst_eq, List.append_assoc]
    · rcases ih (consume g ks).1 with ⟨t, ht⟩
      refine ⟨firstNewKeys g ks ++ t, ?_⟩
      show (runOps (consume g ks).1 ops).1 = _
      rw [ht, consume_fst_eq, List.append_assoc]

theorem runOps_fst_length_le (g : List K) (ops : List (GOp K)) :
    g.length ≤ (runOps g ops).1.length := by
  rcases runOps_fst_extend g ops with ⟨t, ht⟩
  simp [ht]

theorem runOps_snd_lengths (g : List K) (ops : List (GOp K)) :
    (runOps g ops).2.map List.length = (consumeBatches ops).map List.length := by
  induction ops generalizing g with
  | nil => rfl
  | cons op ops ih =>
    rcases op with ks | ks
    · simp [runOps, consumeBatches, ih]
    · simp [runOps, consumeBatches, ih, consume_snd_length]

theorem runOps_ids_lt (g : List K) (ops : List (GOp K)) :
    ∀ ids ∈ (runOps g ops).2, ∀ a ∈ ids, a < (runOps g ops).1.length := by
  induction ops generalizing g with
  | nil => simp [runOps]
  | cons op ops ih =>
    rcases op with ks | ks
    · simpa [runOps] using ih (populate g ks)
    · intro ids hids a ha
      simp only [runOps, List.mem_cons] at hids
      rcases hids with rfl | hids
      · have h1 := consume_ids_lt g ks a ha
        have h2 := runOps_fst_length_le (consume g ks).1 ops
        simp only [runOps]
        omega
      · exact ih (consume g ks).1 ids hids a ha

theorem runOps_all_consume_ids_mem (g : List K) (ops : List (GOp K))
    (hall : ∀ op ∈ ops, isConsumeCall op = true) :
    ∀ p, g.length ≤ p → p < (runOps g ops).1.length →
      p ∈ ((runOps g ops).2).flatten := by
  induction ops generalizing g with
  | nil =>
    intro p hp hlt
    simp only [runOps] at hlt
    omega
  | cons op ops ih =>
    rcases op with ks | ks
    · exact absurd (hall _ (List.mem_cons_self _ _)) (by simp [isConsumeCall])
    · intro p hp hlt
      simp only [runOps, List.flatten_cons, List.mem_append]
      simp only [runOps] at hlt
      by_cases hmid : p < (consume g ks).1.length
      · exact Or.inl (consume_new_ids_mem g ks p hp hmid)
      · refine Or.inr (ih (consume g ks).1 ?_ p (by omega) hlt)
        intro op hop
        exact hall op (List.mem_cons_of_mem _ hop)

theorem getD_map_of_lt {A B : Type} (f : A → B) (l : List A) (dA : A) (dB : B)
    {i : Nat} (h : i < l.length) :
    (l.map f).getD i dB = f (l.getD i dA) := by
  rw [List.getD_eq_get?, List.get?_map, get?_eq_some_getD l dA h]
  rfl

theorem lookup_fst (g : List K) (ks : List K) : (lookup g ks).1 = g :=
  visitKeysGo_false_fst g ks

theorem lookup_snd (g : List K) (ks : List K) :
    (lookup g ks).2 =
      ks.map (fun k => ((groupIdOf? g k).getD 0, (groupIdOf? g k).isSome)) := by
  show (visitKeysGo false g ks).2.map (fun o => (o.getD 0, o.isSome)) = _
  rw [visitKeysGo_false_snd, List.map_map]
  rfl

theorem lookup_snd_length (g : List K) (ks : List K) :
    (lookup g ks).2.length = ks.length := by
  rw [lookup_snd, List.length_map]

theorem mem_foldl_consume (g : List K) (S : List (List K)) (x : K) :
    x ∈ S.foldl (fun g bs => (consume g bs).1) g ↔ x ∈ g ∨ x ∈ S.flatten := by
  induction S generalizing g with
  | nil => simp
  | cons bs S ih =>
    simp only [List.foldl_cons, ih, mem_consume_fst, List.flatten_cons,
      List.mem_append]
    tauto

theorem mem_stateAfterBatches {S : List (List K)} {x : K} :
    x ∈ stateAfterBatches S ↔ x ∈ S.flatten := by
  simp [stateAfterBatches, mem_foldl_consume]

theorem visitKeysGo_true_append (g : List K) (a b : List K) :
    visitKeysGo true g (a ++ b) =
      ((visitKeysGo true (visitKeysGo true g a).1 b).1,
        (visitKeysGo true g a).2 ++ (visitKeysGo true (visitKeysGo true g a).1 b).2) := by
  induction a generalizing g with
  | nil => simp [visitKeysGo]
  | cons k a ih =>
    simp [visitKeysGo, ih]

theorem consume_append (g : List K) (a b : List K) :
    consume g (a ++ b) =
      ((consume (consume g a).1 b).1,
        (consume g a).2 ++ (consume (consume g a).1 b).2) := by
  show ((visitKeysGo true g (a ++ b)).1, (visitKeysGo true g (a ++ b)).2.map _) = _
  rw [visitKeysGo_true_append]
  simp [consume, List.map_append]

theorem minibatchStep_eq_consume (t : List K) (ms : List K) :
    minibatchStep t ms = consume t ms := by
  have h1 : (minibatchStep t ms).1 = (consume t ms).1 := (consume_fst_eq t ms).symm
  have h2 : (minibatchStep t ms).2 = (consume t ms).2 := by
    show ms.map _ = _
    rw [consume_snd_eq, consume_fst_eq]
  exact Prod.ext h1 h2

theorem fastConsume_eq_consume (t : List K) (css : List (List K)) :
    fastConsume t css = consume t css.flatten := by
  induction css generalizing t with
  | nil => simp [fastConsume, consume, visitKeysGo]
  | cons ms rest ih =>
    show ((fastConsume (minibatchStep t ms).1 rest).1,
        (minibatchStep t ms).2 ++ (fastConsume (minibatchStep t ms).1 rest).2) = _
    rw [minibatchStep_eq_consume, ih, List.flatten_cons, consume_append]

theorem runFast_eq_runConsumeSeq (t : List K) (split : List (List (List K))) :
    runFast t split = runConsumeSeq t (split.map List.flatten) := by
  induction split generalizing t with
  | nil => rfl
  | cons chunks rest ih =>
    show ((runFast (fastConsume t chunks).1 rest).1,
        (fastConsume t chunks).2 :: (runFast (fastConsume t chunks).1 rest).2) = _
    rw [fastConsume_eq_consume, ih]
    rfl

theorem le_foldr_max {l : List Nat} {a : Nat} (h : a ∈ l) : a ≤ l.foldr max 0 := by
  induction l with
  | nil => simp at h
  | cons x xs ih =>
    rcases List.mem_cons.mp h with rfl | h'
    · simp [List.foldr_cons, le_max_iff]
    · simp only [List.foldr_cons, le_max_iff]
      exact Or.inr (ih h')

theorem foldr_max_lt {l : List Nat} {n : Nat} (h : ∀ a ∈ l, a < n) (h0 : 0 < n) :
    l.foldr max 0 < n := by
  induction l with
  | nil => simpa using h0
  | cons x xs ih =>
    simp only [List.foldr_cons, max_lt_iff]
    exact ⟨h x (List.mem_cons_self _ _), ih (fun a ha => h a (List.mem_cons_of_mem _ ha))⟩

end GrouperTheorems

theorem countsGo_apply (l : List Nat) (c : Nat → Nat) (x : Nat) :
    countsGo l c x = c x + l.count x := by
  induction l generalizing c with
  | nil => simp [countsGo]
  | cons a t ih =>
    rw [show countsGo (a :: t) c = countsGo t (Function.update c a (c a + 1)) from rfl,
      ih, List.count_cons, Function.update_apply]
    by_cases hx : x = a
    · subst hx
      simp only [if_pos rfl, beq_self_eq_true, if_true]
      omega
    · have hb : (a == x) = false := beq_eq_false_iff_ne.mpr (Ne.symm hx)
      simp only [if_neg hx, hb]
      simp only [Bool.false_eq_true, if_false]
      omega

theorem prefixGo_snd : ∀ (n : Nat) (raw : Nat → Nat) (len id : Nat),
    (prefixGo raw len id n).2 = len + ∑ j in Finset.range n, raw (id + j) := by
  intro n
  induction n with
  | zero =>
    intro raw len id
    simp [prefixGo]
  | succ n ih =>
    intro raw len id
    rw [show prefixGo raw len id (n + 1)
        = prefixGo (Function.update raw id len) (len + raw id) (id + 1) n from rfl]
    rw [ih]
    have hs1 : (∑ j in Finset.range n, (Function.update raw id len) (id + 1 + j))
        = ∑ j in Finset.range n, raw (id + 1 + j) :=
      Finset.sum_congr rfl (fun j _ => Function.update_noteq (by omega) _ _)
    rw [hs1, Finset.sum_range_succ']
    have hs2 : (∑ j in Finset.range n, raw (id + (j + 1)))
        = ∑ j in Finset.range n, raw (id + 1 + j) :=
      Finset.sum_congr rfl (fun j _ => by rw [show id + (j + 1) = id + 1 + j by omega])
    rw [hs2]
    simp only [Nat.add_zero]
    omega

theorem prefixGo_fst : ∀ (n : Nat) (raw : Nat → Nat) (len id x : Nat),
    (prefixGo raw len id n).1 x =
      if id ≤ x ∧ x < id + n then len + ∑ j in Finset.range (x - id), raw (id + j)
      else raw x := by
  intro n
  induction n with
  | zero =>
    intro raw len id x
    rw [show prefixGo raw len id 0 = (raw, len) from rfl]
    rw [if_neg (by omega)]
  | succ n ih =>
    intro raw len id x
    rw [show prefixGo raw len id (n + 1)
        = prefixGo (Function.update raw id len) (len + raw id) (id + 1) n from rfl]
    rw [ih]
    by_cases hx : x = id
    · subst hx
      rw [if_neg (by omega), if_pos (by omega)]
      simp [Function.update_same]
    · by_cases hrange : id + 1 ≤ x ∧ x < id + 1 + n
      · rw [if_pos hrange, if_pos (by omega)]
        have hs1 : (∑ j in Finset.range (x - (id + 1)),
            (Function.update raw id len) (id + 1 + j))
            = ∑ j in Finset.range (x - (id + 1)), raw (id + 1 + j) :=
          Finset.sum_congr rfl (fun j _ => Function.update_noteq (by omega) _ _)
        rw [hs1]
        have hm : x - id = (x - (id + 1)) + 1 := by omega
        rw [hm, Finset.sum_range_succ']
        have hs2 : (∑ j in Finset.range (x - (id + 1)), raw (id + (j + 1)))
            = ∑ j in Finset.range (x - (id + 1)), raw (id + 1 + j) :=
          Finset.sum_congr rfl
            (fun j _ => by rw [show id + (j + 1) = id + 1 + j by omega])
        rw [hs2]
        simp only [Nat.add_zero]
        omega
      · rw [if_neg hrange, if_neg (by omega)]
        exact Function.update_noteq hx _ _

theorem mgCounts_apply (vals : List Nat) (x : Nat) : mgCounts vals x = vals.count x := by
  rw [mgCounts, countsGo_apply]
  omega

theorem mgOffs_apply (vals : List Nat) (nG : Nat) {g : Nat} (hg : g ≤ nG) :
    mgOffs vals nG g = ∑ j in Finset.range g, vals.count j := by
  rcases Nat.lt_or_ge g nG with h | h
  · rw [mgOffs, Function.update_noteq (by omega), prefixGo_fst, if_pos (by omega)]
    simp only [Nat.zero_add, Nat.sub_zero]
    exact Finset.sum_congr rfl (fun j _ => mgCounts_apply vals j)
  · have hgn : g = nG := by omega
    subst hgn
    rw [mgOffs, Function.update_same, prefixGo_snd]
    simp only [Nat.zero_add]
    exact Finset.sum_congr rfl (fun j _ => mgCounts_apply vals j)

theorem mgOffs_zero (vals : List Nat) (nG : Nat) : mgOffs vals nG 0 = 0 := by
  rw [mgOffs_apply vals nG (Nat.zero_le nG)]
  simp

theorem mgOffs_succ (vals : List Nat) (nG : Nat) {g : Nat} (hg : g < nG) :
    mgOffs vals nG (g + 1) = mgOffs vals nG g + vals.count g := by
  rw [mgOffs_apply vals nG (by omega), mgOffs_apply vals nG (Nat.le_of_lt hg),
    Finset.sum_range_succ]

theorem mgOffs_mono (vals : List Nat) (nG : Nat) {a b : Nat} (hab : a ≤ b)
    (hb : b ≤ nG) : mgOffs vals nG a ≤ mgOffs vals nG b := by
  rw [mgOffs_apply vals nG (Nat.le_trans hab hb), mgOffs_apply vals nG hb]
  exact Finset.sum_le_sum_of_subset (Finset.range_subset.mpr hab)

theorem sum_count_eq_length {l : List Nat} {m : Nat} (h : ∀ v ∈ l, v < m) :
    ∑ j in Finset.range m, l.count j = l.length := by
  induction l with
  | nil => simp
  | cons a t ih =>
    have ha : a < m := h a (List.mem_cons_self _ _)
    have ht : ∀ v ∈ t, v < m := fun v hv => h v (List.mem_cons_of_mem _ hv)
    have hc : ∀ j, (a :: t).count j = t.count j + if j = a then 1 else 0 := by
      intro j
      rw [List.count_cons]
      by_cases hj : j = a
      · simp [hj]
      · have hb : (j == a) = false := beq_eq_false_iff_ne.mpr hj
        have hj' : ¬a = j := fun e => hj (Eq.symm e)
        simp [hj, hb, hj']
    rw [Finset.sum_congr rfl (fun j _ => hc j), Finset.sum_add_distrib, ih ht,
      Finset.sum_ite_eq' (Finset.range m) a (fun _ => 1)]
    simp [Finset.mem_range.mpr ha]

theorem mgOffs_top {vals : List Nat} {nG : Nat} (h : ∀ v ∈ vals, v < nG) :
    mgOffs vals nG nG = vals.length := by
  rw [mgOffs_apply vals nG Nat.le.refl, sum_count_eq_length h]

theorem mgOffs_region_lt (vals : List Nat) (nG : Nat) {g1 g2 r1 : Nat}
    (h12 : g1 < g2) (hg2 : g2 ≤ nG) (hr : r1 < vals.count g1) :
    mgOffs vals nG g1 + r1 < mgOffs vals nG g2 := by
  have h1 : mgOffs vals nG g1 + r1 < mgOffs vals nG (g1 + 1) := by
    rw [mgOffs_succ vals nG (by omega)]
    omega
  have h2 : mgOffs vals nG (g1 + 1) ≤ mgOffs vals nG g2 :=
    mgOffs_mono vals nG (by omega) hg2
  omega

theorem getD_append_left {A : Type} (l t : List A) (d : A) {i : Nat}
    (h : i < l.length) : (l ++ t).getD i d = l.getD i d := by
  rw [List.getD_eq_get?, List.getD_eq_get?, List.get?_append h]

theorem mem_posIn {l : List Nat} {g i : Nat} :
    i ∈ posIn l g ↔ i < l.length ∧ l.getD i 0 = g := by
  simp [posIn, List.mem_filter, List.mem_range]

theorem posIn_snoc (l : List Nat) (v g : Nat) :
    posIn (l ++ [v]) g = posIn l g ++ if v = g then [l.length] else [] := by
  have hlen : (l ++ [v]).length = l.length + 1 := by simp
  rw [posIn, hlen, List.range_succ, List.filter_append]
  congr 1
  · apply List.filter_congr
    intro i hi
    have hil : i < l.length := List.mem_range.mp hi
    rw [getD_append_left l [v] 0 hil]
  · have hv : (l ++ [v]).getD l.length 0 = v := by
      rw [List.getD_eq_get?, List.get?_concat_length]
      rfl
    by_cases hvg : v = g
    · simp [hv, hvg]
    · simp [hv, hvg]

theorem posIn_length (l : List Nat) (g : Nat) : (posIn l g).length = l.count g := by
  induction l using List.reverseRecOn with
  | nil => simp [posIn]
  | append_singleton l v ih =>
    rw [posIn_snoc, List.length_append, ih, List.count_append]
    by_cases hvg : v = g
    · have hb : (g == v) = true := by simp [hvg]
      simp [hvg, List.count_cons, hb]
    · have hb : (g == v) = false := beq_eq_false_iff_ne.mpr (Ne.symm hvg)
      simp [hvg, List.count_cons, hb]

theorem count_singleton_eq (x v : Nat) : ([v] : List Nat).count x = if x = v then 1 else 0 := by
  rw [show ([v] : List Nat) = v :: [] from rfl, List.count_cons]
  simp only [List.count_nil, Nat.zero_add]
  by_cases h : x = v
  . simp [h]
  . have hb : (x == v) = false := beq_eq_false_iff_ne.mpr h
    have h' : ¬v = x := fun e => h (Eq.symm e)
    simp [h, hb, h']

theorem getD_concat_length {A : Type} (l : List A) (x d : A) :
    (l ++ [x]).getD l.length d = x := by
  rw [List.getD_eq_get?, List.get?_concat_length]
  rfl

theorem placeGo_spec_aux (nG : Nat) (full : List Nat)
    (hvals : forall v, v ∈ full -> v < nG) :
    forall (todo done : List Nat) (c o : Nat -> Nat),
      done ++ todo = full ->
      (forall g, g < nG -> c g = mgOffs full nG g + done.count g) ->
      (forall g, g < nG -> forall r, r < done.count g ->
        o (mgOffs full nG g + r) = (posIn done g).getD r 0) ->
      forall g, g < nG -> forall r, r < full.count g ->
        (placeGo todo done.length c o).2 (mgOffs full nG g + r)
          = (posIn full g).getD r 0 := by
  intro todo
  induction todo with
  | nil =>
    intro done c o hdone hc ho g hg r hr
    rw [show placeGo [] done.length c o = (c, o) from rfl]
    have hde : done = full := by simpa using hdone
    subst hde
    exact ho g hg r hr
  | cons v rest ih =>
    intro done c o hdone hc ho g hg r hr
    have hvfull : v ∈ full := by
      rw [<- hdone]
      simp
    have hv : v < nG := hvals v hvfull
    have hcount_le : forall x, done.count x + (v :: rest).count x = full.count x := by
      intro x
      rw [<- hdone, List.count_append]
    have hdc : done.count v < full.count v := by
      have h1 := hcount_le v
      have hvc : 0 < (v :: rest).count v := by
        rw [List.count_cons]
        simp
      omega
    rw [show placeGo (v :: rest) done.length c o
        = placeGo rest (done.length + 1) (Function.update c v (c v + 1))
            (Function.update o (c v) done.length) from rfl]
    have hcv : c v = mgOffs full nG v + done.count v := hc v hv
    have happ : (done ++ [v]) ++ rest = full := by
      rw [List.append_assoc]
      simpa using hdone
    have hc' : forall g', g' < nG -> (Function.update c v (c v + 1)) g'
        = mgOffs full nG g' + (done ++ [v]).count g' := by
      intro g' hg'
      rw [Function.update_apply, List.count_append, count_singleton_eq]
      by_cases hgv : g' = v
      . subst hgv
        rw [if_pos rfl, if_pos rfl, hc g' hg']
        omega
      . rw [if_neg hgv, if_neg hgv, hc g' hg']
        omega
    have ho' : forall g', g' < nG -> forall r', r' < (done ++ [v]).count g' ->
        (Function.update o (c v) done.length) (mgOffs full nG g' + r')
          = (posIn (done ++ [v]) g').getD r' 0 := by
      intro g' hg' r' hr'
      rw [List.count_append, count_singleton_eq] at hr'
      by_cases hgv : g' = v
      . subst hgv
        rw [if_pos rfl] at hr'
        rcases Nat.lt_or_ge r' (done.count g') with hlt | hge
        . have hne : mgOffs full nG g' + r' ≠ c g' := by
            rw [hcv]
            omega
          rw [Function.update_noteq hne, ho g' hg' r' hlt, posIn_snoc, if_pos rfl]
          rw [getD_append_left _ _ 0 (by rw [posIn_length]; exact hlt)]
        . have hre : r' = done.count g' := by omega
          subst hre
          rw [hcv, Function.update_same, posIn_snoc, if_pos rfl]
          rw [<- posIn_length done g', getD_concat_length]
      . rw [if_neg hgv] at hr'
        simp only [Nat.add_zero] at hr'
        have hrfull : r' < full.count g' := by
          have := hcount_le g'
          omega
        have hne : mgOffs full nG g' + r' ≠ c v := by
          rw [hcv]
          rcases Nat.lt_or_ge g' v with hglt | hgge
          . have := mgOffs_region_lt full nG hglt (Nat.le_of_lt hv) hrfull
            omega
          . have hvg : v < g' := by omega
            have := mgOffs_region_lt full nG hvg (Nat.le_of_lt hg') hdc
            omega
        have hvg' : ¬v = g' := fun e => hgv (Eq.symm e)
        rw [Function.update_noteq hne, ho g' hg' r' hr', posIn_snoc, if_neg hvg',
          List.append_nil]
    have := ih (done ++ [v]) (Function.update c v (c v + 1))
      (Function.update o (c v) done.length) happ hc' ho' g hg r hr
    rw [show (done ++ [v]).length = done.length + 1 by simp] at this
    exact this

theorem placeGo_spec (vals : List Nat) (nG : Nat)
    (hvals : forall v, v ∈ vals -> v < nG) :
    forall g, g < nG -> forall r, r < vals.count g ->
      (placeGo vals 0 (mgOffs vals nG) (fun _ => 0)).2 (mgOffs vals nG g + r)
        = (posIn vals g).getD r 0 := by
  intro g hg r hr
  have h0 : ([] : List Nat) ++ vals = vals := by simp
  have hc0 : forall g', g' < nG ->
      mgOffs vals nG g' = mgOffs vals nG g' + ([] : List Nat).count g' := by
    intro g' _
    simp
  have ho0 : forall g', g' < nG -> forall r', r' < ([] : List Nat).count g' ->
      (fun _ => (0 : Nat)) (mgOffs vals nG g' + r') = (posIn ([] : List Nat) g').getD r' 0 := by
    intro g' _ r' hr'
    simp at hr'
  have := placeGo_spec_aux nG vals hvals vals [] (mgOffs vals nG) (fun _ => 0)
    h0 hc0 ho0 g hg r hr
  simpa using this

theorem getD_range {n i : Nat} (h : i < n) : (List.range n).getD i 0 = i := by
  rw [List.getD_eq_getElem?_getD, List.getElem?_range h]
  rfl

theorem mgRun_fst_getD (vals : List Nat) (nG : Nat) {g : Nat} (hg : g ≤ nG) :
    (mgRun vals nG).1.getD g 0 = mgOffs vals nG g := by
  show ((List.range (nG + 1)).map (mgOffs vals nG)).getD g 0 = _
  rw [getD_map_of_lt (mgOffs vals nG) (List.range (nG + 1)) 0 0
    (by rw [List.length_range]; omega)]
  rw [getD_range (by omega)]

theorem mgRun_snd_getD (vals : List Nat) (nG : Nat) {k : Nat} (hk : k < vals.length) :
    (mgRun vals nG).2.getD k 0
      = (placeGo vals 0 (mgOffs vals nG) (fun _ => 0)).2 k := by
  show ((List.range vals.length).map _).getD k 0 = _
  rw [getD_map_of_lt _ (List.range vals.length) 0 0 (by rw [List.length_range]; omega)]
  rw [getD_range hk]

/-- C1.  For every batch consumed by a grouper (in any state `g`), the
returned group-id array satisfies `ids[i] == ids[j]` iff rows `i` and `j`
have equal key tuples; `Row` equality is `Option`-wise, so a null equals
a null of the same column and differs from every non-null value
(GrouperImpl::VisitKeys assigns each row the map id of its encoded key;
encoding is injective on key tuples). -/
theorem c1_ids_equal_iff_keys_equal (g : List Row) (ks : List Row) {i j : Nat}
    (hi : i < ks.length) (hj : j < ks.length) :
    (consume g ks).2.getD i 0 = (consume g ks).2.getD j 0 ↔
      ks.getD i [] = ks.getD j [] :=
  consume_ids_eq_iff g ks [] hi hj

theorem c1_ids_equal_iff_keys_equal_witness :
    (consume ([] : List Row) [[some 1], [none], [some 1]]).2.getD 0 0
        = (consume ([] : List Row) [[some 1], [none], [some 1]]).2.getD 2 0 ∧
      (consume ([] : List Row) [[some 1], [none], [some 1]]).2.getD 0 0
        ≠ (consume ([] : List Row) [[some 1], [none], [some 1]]).2.getD 1 0 :=
  ⟨(c1_ids_equal_iff_keys_equal ([] : List Row) [[some 1], [none], [some 1]]
      (by decide) (by decide)).mpr (by decide),
   fun h =>
     by simpa using (c1_ids_equal_iff_keys_equal ([] : List Row)
       [[some 1], [none], [some 1]] (by decide) (by decide)).mp h⟩

/-- C5.  For a null-free uint32 id array with every id < num_groups,
`MakeGroupings` succeeds and returns offsets `[0..num_groups]` that are
the prefix-summed per-group counts (`offsets[0] = 0`,
`offsets[num_groups] = n`) together with a permutation of `[0..n)` whose
slice `[offsets[g], offsets[g+1])` enumerates, in ascending order,
exactly the positions `i` with `ids[i] = g`. -/
theorem c5_groupings_offsets_and_permutation (ids : List (Option Nat)) (nG : Nat)
    (hnn : ∀ x ∈ ids, x.isSome = true) (hrange : ∀ x ∈ ids, x.getD 0 < nG) :
    makeGroupings ids nG
        = Except.ok (mgRun (ids.map (fun x => x.getD 0)) nG) ∧
      (mgRun (ids.map (fun x => x.getD 0)) nG).1.length = nG + 1 ∧
      (mgRun (ids.map (fun x => x.getD 0)) nG).2.length = ids.length ∧
      (mgRun (ids.map (fun x => x.getD 0)) nG).1.getD 0 0 = 0 ∧
      (∀ g, g < nG →
        (mgRun (ids.map (fun x => x.getD 0)) nG).1.getD (g + 1) 0
          = (mgRun (ids.map (fun x => x.getD 0)) nG).1.getD g 0
            + (ids.map (fun x => x.getD 0)).count g) ∧
      (mgRun (ids.map (fun x => x.getD 0)) nG).1.getD nG 0 = ids.length ∧
      List.Perm (mgRun (ids.map (fun x => x.getD 0)) nG).2
        (List.range ids.length) ∧
      (∀ g, g < nG →
        (((mgRun (ids.map (fun x => x.getD 0)) nG).2.drop
            ((mgRun (ids.map (fun x => x.getD 0)) nG).1.getD g 0)).take
          ((ids.map (fun x => x.getD 0)).count g))
          = posIn (ids.map (fun x => x.getD 0)) g) := by
  set vals := ids.map (fun x => x.getD 0) with hvals_def
  have hvals : ∀ v ∈ vals, v < nG := by
    intro v hv
    rcases List.mem_map.mp hv with ⟨x, hx, rfl⟩
    exact hrange x hx
  have hn : vals.length = ids.length := by
    rw [hvals_def, List.length_map]
  have hperm_len : (mgRun vals nG).2.length = vals.length := by
    show ((List.range vals.length).map _).length = _
    rw [List.length_map, List.length_range]
  refine ⟨?_, ?_, ?_, ?_, ?_, ?_, ?_, ?_⟩
  · rw [makeGroupings, if_neg ?_]
    intro hany
    rcases List.any_eq_true.mp hany with ⟨x, hx, hnone⟩
    have := hnn x hx
    rcases x with _ | w
    · exact Bool.noConfusion this
    · exact Bool.noConfusion hnone
  · show ((List.range (nG + 1)).map _).length = _
    rw [List.length_map, List.length_range]
  · rw [hperm_len, hn]
  · rw [mgRun_fst_getD vals nG (Nat.zero_le nG), mgOffs_zero]
  · intro g hg
    rw [mgRun_fst_getD vals nG (by omega), mgRun_fst_getD vals nG (by omega),
      mgOffs_succ vals nG hg]
  · rw [mgRun_fst_getD vals nG Nat.le.refl, mgOffs_top hvals, hn]
  · have hsub : List.range ids.length ⊆ (mgRun vals nG).2 := by
      intro x hx
      have hxn : x < vals.length := by
        rw [hn]
        exact List.mem_range.mp hx
      have hgx : vals.getD x 0 < nG := by
        apply hvals
        exact List.get?_mem (get?_eq_some_getD vals 0 hxn)
      have hmem : x ∈ posIn vals (vals.getD x 0) := mem_posIn.mpr ⟨hxn, rfl⟩
      rcases List.get_of_mem hmem with ⟨⟨r, hrlen⟩, hget⟩
      have hget? : (posIn vals (vals.getD x 0)).get? r = some x := by
        rw [List.get?_eq_get hrlen, hget]
      have hrc : r < vals.count (vals.getD x 0) := by
        rw [← posIn_length vals (vals.getD x 0)]
        exact hrlen
      have hgetD : (posIn vals (vals.getD x 0)).getD r 0 = x := by
        rw [List.getD_eq_get?, hget?]
        rfl
      have hplace := placeGo_spec vals nG hvals (vals.getD x 0) hgx r hrc
      rw [hgetD] at hplace
      have hlt : mgOffs vals nG (vals.getD x 0) + r < vals.length := by
        have h1 : mgOffs vals nG (vals.getD x 0) + r
            < mgOffs vals nG (vals.getD x 0 + 1) := by
          rw [mgOffs_succ vals nG hgx]
          omega
        have h2 : mgOffs vals nG (vals.getD x 0 + 1) ≤ mgOffs vals nG nG :=
          mgOffs_mono vals nG (by omega) Nat.le.refl
        have h3 : mgOffs vals nG nG = vals.length := mgOffs_top hvals
        omega
      show x ∈ (List.range vals.length).map _
      exact List.mem_map.mpr ⟨mgOffs vals nG (vals.getD x 0) + r,
        List.mem_range.mpr hlt, hplace⟩
    have hsp : List.Subperm (List.range ids.length) (mgRun vals nG).2 :=
      List.subperm_of_subset (List.nodup_range _) hsub
    exact (hsp.perm_of_length_le (by rw [hperm_len, hn, List.length_range])).symm
  · intro g hg
    have hA : (mgRun vals nG).1.getD g 0 = mgOffs vals nG g :=
      mgRun_fst_getD vals nG (by omega)
    have hAB : mgOffs vals nG g + vals.count g ≤ vals.length := by
      have h1 : mgOffs vals nG g + vals.count g = mgOffs vals nG (g + 1) :=
        (mgOffs_succ vals nG hg).symm
      have h2 : mgOffs vals nG (g + 1) ≤ mgOffs vals nG nG :=
        mgOffs_mono vals nG (by omega) Nat.le.refl
      rw [mgOffs_top hvals] at h2
      omega
    rw [hA]
    apply List.ext_getElem?
    intro i
    by_cases hi : i < vals.count g
    · rw [List.getElem?_take_of_lt hi, List.getElem?_drop]
      have hin : mgOffs vals nG g + i < vals.length := by omega
      have hout : (mgRun vals nG).2[mgOffs vals nG g + i]?
          = some ((placeGo vals 0 (mgOffs vals nG) (fun _ => 0)).2
              (mgOffs vals nG g + i)) := by
        have hlen2 : mgOffs vals nG g + i < (mgRun vals nG).2.length := by
          rw [hperm_len]
          omega
        rw [← List.get?_eq_getElem?,
          get?_eq_some_getD _ 0 hlen2, mgRun_snd_getD vals nG hin]
      rw [hout, placeGo_spec vals nG hvals g hg i hi]
      have hip : i < (posIn vals g).length := by
        rw [posIn_length]
        exact hi
      rw [← List.get?_eq_getElem?, get?_eq_some_getD _ 0 hip]
    · have h1 : (((mgRun vals nG).2.drop (mgOffs vals nG g)).take
          (vals.count g)).length ≤ vals.count g := by
        rw [List.length_take]
        omega
      have h2 : (posIn vals g).length = vals.count g := posIn_length vals g
      rw [List.getElem?_eq_none (by omega), List.getElem?_eq_none (by omega)]

theorem c5_groupings_offsets_and_permutation_witness :
    makeGroupings [some 0, some 2, some 0, some 1, some 2, some 0] 3
        = Except.ok (mgRun ([some 0, some 2, some 0, some 1, some 2, some 0].map
            (fun x => x.getD 0)) 3) ∧
      (((mgRun ([some 0, some 2, some 0, some 1, some 2, some 0].map
            (fun x => x.getD 0)) 3).2.drop
          ((mgRun ([some 0, some 2, some 0, some 1, some 2, some 0].map
            (fun x => x.getD 0)) 3).1.getD 2 0)).take
        (([some 0, some 2, some 0, some 1, some 2, some 0].map
            (fun x => x.getD 0)).count 2))
        = posIn ([some 0, some 2, some 0, some 1, some 2, some 0].map
            (fun x => x.getD 0)) 2 :=
  ⟨(c5_groupings_offsets_and_permutation
      [some 0, some 2, some 0, some 1, some 2, some 0] 3
      (by decide) (by decide)).1,
   (c5_groupings_offsets_and_permutation
      [some 0, some 2, some 0, some 1, some 2, some 0] 3
      (by decide) (by decide)).2.2.2.2.2.2.2 2 (by decide)⟩

/-- C6, counterexample.  `MakeGroupings` with `ids = [1]` and
`num_groups = 1` has an id `>= num_groups`, yet it does not fail: the
range check is only a `DCHECK` (debug assertion), and the release build
returns a (malformed) grouping. -/
theorem c6_counterexample_large_id :
    (makeGroupings [some 1] 1).toOption = some ([0, 0], [0]) := by
  decide

/-- C6, amended.  `MakeGroupings` fails with the `Invalid` error iff the
input array contains nulls; an id `>= num_groups` is not reported as an
error (it only violates debug assertions). -/
theorem c6_error_iff_nulls (ids : List (Option Nat)) (nG : Nat) :
    makeGroupings ids nG = Except.error "MakeGroupings with null ids"
      ↔ ids.any (fun x => x.isNone) = true := by
  by_cases h : ids.any (fun x => x.isNone) = true
  · simp [makeGroupings, h]
  · simp [makeGroupings, h]

/-- C2, counterexample.  After `consume` of batch `[[5]]` followed by
`populate` of batch `[[7]]` the grouper holds two groups, yet the only
id returned so far is 0, so `num_groups()` differs from one plus the
maximum returned id: populate inserts keys without returning ids. -/
theorem c2_counterexample_populate :
    numGroups (runOps ([] : List Row)
        [GOp.consumeOp [[some 5]], GOp.populateOp [[some 7]]]).1 = 2 ∧
      ((runOps ([] : List Row)
        [GOp.consumeOp [[some 5]], GOp.populateOp [[some 7]]]).2).flatten = [0] ∧
      numGroups (runOps ([] : List Row)
          [GOp.consumeOp [[some 5]], GOp.populateOp [[some 7]]]).1
        ≠ (((runOps ([] : List Row)
          [GOp.consumeOp [[some 5]], GOp.populateOp [[some 7]]]).2).flatten).foldr
            max 0 + 1 := by
  decide

/-- C2, amended.  For every sequence of populate/consume calls from a
fresh grouper: each consume call returns exactly `length` values (and no
null bitmap), every returned id lies in `[0, num_groups())`, and when
every call is a consume call and at least one id was returned,
`num_groups()` equals one plus the maximum id returned so far (ids are
dense, assigned contiguously from 0).  A populate call can insert keys
without returning their ids, making `num_groups()` exceed `max(ids)+1`. -/
theorem c2_dense_ids (ops : List (GOp Row)) :
    (runOps ([] : List Row) ops).2.map List.length
        = (consumeBatches ops).map List.length ∧
      (∀ ids ∈ (runOps ([] : List Row) ops).2, ∀ a ∈ ids,
        a < numGroups (runOps ([] : List Row) ops).1) ∧
      ((∀ op ∈ ops, isConsumeCall op = true) →
        ((runOps ([] : List Row) ops).2).flatten ≠ [] →
        numGroups (runOps ([] : List Row) ops).1
          = (((runOps ([] : List Row) ops).2).flatten).foldr max 0 + 1) := by
  simp only [numGroups]
  refine ⟨runOps_snd_lengths [] ops, runOps_ids_lt [] ops, ?_⟩
  intro hall hne
  have hlt : ∀ a ∈ ((runOps ([] : List Row) ops).2).flatten,
      a < (runOps ([] : List Row) ops).1.length := by
    intro a ha
    rcases List.mem_flatten.mp ha with ⟨ids, hids, ha'⟩
    exact runOps_ids_lt [] ops ids hids a ha'
  have hpos : 0 < (runOps ([] : List Row) ops).1.length := by
    rcases List.exists_mem_of_ne_nil _ hne with ⟨a, ha⟩
    have := hlt a ha
    omega
  have hmem : (runOps ([] : List Row) ops).1.length - 1
      ∈ ((runOps ([] : List Row) ops).2).flatten :=
    runOps_all_consume_ids_mem [] ops hall _ (by simp) (by omega)
  have h1 := le_foldr_max hmem
  have h2 := foldr_max_lt hlt hpos
  omega

theorem c2_dense_ids_witness :
    numGroups (runOps ([] : List Row)
        [GOp.consumeOp [[some 3], [some 1], [some 3]]]).1
      = (((runOps ([] : List Row)
        [GOp.consumeOp [[some 3], [some 1], [some 3]]]).2).flatten).foldr max 0
          + 1 :=
  (c2_dense_ids [GOp.consumeOp [[some 3], [some 1], [some 3]]]).2.2
    (by decide) (by decide)

/-- C3.  After consuming a batch sequence `S`, `Lookup(T)` inserts no
keys (the state is unchanged) and returns one value per row of `T`; when
row i's key appears in `S` the value is the id `Consume(T)` would have
assigned with validity `true`, and when it does not appear the value is
`(0, false)` (integer 0, null bitmap marking the row absent). -/
theorem c3_lookup_correct (S : List (List Row)) (T : List Row) :
    (lookup (stateAfterBatches S) T).1 = stateAfterBatches S ∧
      (lookup (stateAfterBatches S) T).2.length = T.length ∧
      ∀ i, i < T.length →
        (T.getD i [] ∈ S.flatten →
          (lookup (stateAfterBatches S) T).2.getD i (0, false)
            = ((consume (stateAfterBatches S) T).2.getD i 0, true)) ∧
        (T.getD i [] ∉ S.flatten →
          (lookup (stateAfterBatches S) T).2.getD i (0, false) = (0, false)) := by
  refine ⟨lookup_fst _ _, lookup_snd_length _ _, ?_⟩
  intro i hi
  have hlk : (lookup (stateAfterBatches S) T).2.getD i (0, false)
      = ((groupIdOf? (stateAfterBatches S) (T.getD i [])).getD 0,
         (groupIdOf? (stateAfterBatches S) (T.getD i [])).isSome) := by
    rw [lookup_snd]
    exact getD_map_of_lt _ T [] (0, false) hi
  constructor
  · intro hmem
    have hg : T.getD i [] ∈ stateAfterBatches S := mem_stateAfterBatches.mpr hmem
    rcases Option.isSome_iff_exists.mp (groupIdOf?_isSome.mpr hg) with ⟨a, ha⟩
    rcases consume_getD_some (stateAfterBatches S) T [] hi with ⟨b, hb, hb2⟩
    have hfb : groupIdOf? ((consume (stateAfterBatches S) T).1) (T.getD i [])
        = groupIdOf? (stateAfterBatches S) (T.getD i []) := by
      rw [consume_fst_eq]
      exact groupIdOf?_append_of_mem hg
    rw [hfb, ha] at hb
    rw [hlk, ha, hb2, ← Option.some.inj hb]
    simp
  · intro hmem
    have hg : T.getD i [] ∉ stateAfterBatches S :=
      fun h => hmem (mem_stateAfterBatches.mp h)
    rw [hlk, groupIdOf?_eq_none.mpr hg]
    rfl

theorem c3_lookup_correct_witness :
    (lookup (stateAfterBatches [[[some 1], [some 2]]])
        [[some 2], [some 9]]).2.getD 0 (0, false)
      = ((consume (stateAfterBatches [[[some 1], [some 2]]])
        [[some 2], [some 9]]).2.getD 0 0, true) ∧
    (lookup (stateAfterBatches [[[some 1], [some 2]]])
        [[some 2], [some 9]]).2.getD 1 (0, false) = (0, false) :=
  ⟨((c3_lookup_correct [[[some 1], [some 2]]] [[some 2], [some 9]]).2.2 0
      (by decide)).1 (by decide),
   ((c3_lookup_correct [[[some 1], [some 2]]] [[some 2], [some 9]]).2.2 1
      (by decide)).2 (by decide)⟩

/-- C7, bug evaluation.  A fresh `GrouperImpl` decodes `uniques()`
correctly: the initializer `offsets_ = {0}` makes `offsets_[k]` the
start offset of key k.  `Reset()` however clears `offsets_` to empty
instead of restoring `{0}`; each key inserted after a reset pushes its
END offset, so `GetUniques` decodes key k at the offset where key k
ends.  Concretely: after reset, consume one batch whose single key is
the value 5; `uniques()` decodes the bytes past the key (yielding a null
image), not the first-appearing key 5 of group id 0. -/
theorem c7_reset_breaks_uniques :
    getUniquesB (consumeB GrouperImplB.initial [some 5]).1 = [some 5] ∧
      (consumeB (GrouperImplB.initial.reset) [some 5]).1.offsets = [2] ∧
      getUniquesB (consumeB (GrouperImplB.initial.reset) [some 5]).1 = [none] ∧
      getUniquesB (consumeB (GrouperImplB.initial.reset) [some 5]).1 ≠ [some 5] := by
  decide

/-- C8.  The fast grouper and the fallback grouper fed the same batch
sequence produce identical group-id arrays and identical final key
tables (hence identical `uniques()`, which both implementations decode
from their key store in insertion order), for every way of splitting
each batch into mini-batches — so the output does not depend on the
mini-batch size. -/
theorem c8_fast_equals_fallback (bss : List (List Row))
    (split : List (List (List Row))) (h : split.map List.flatten = bss) :
    runFast ([] : List Row) split = runConsumeSeq ([] : List Row) bss := by
  rw [runFast_eq_runConsumeSeq, h]

theorem c8_fast_equals_fallback_witness :
    runFast ([] : List Row) [[[[some 1], [some 2]], [[some 1], [some 3]]]]
      = runConsumeSeq ([] : List Row) [[[some 1], [some 2], [some 1], [some 3]]] :=
  c8_fast_equals_fallback [[[some 1], [some 2], [some 1], [some 3]]]
    [[[[some 1], [some 2]], [[some 1], [some 3]]]] (by decide)

/-- C10.  A populate/consume/lookup call with a negative `length` and
`0 <= offset <= batch.length` behaves exactly as if `length` were
`batch.length - offset` (the capping in `CheckAndCapLengthForConsume`). -/
theorem c10_negative_length_means_rest_of_batch (g : List Row) (ks : List Row)
    (offset length : Int) (hneg : length < 0) (h0 : 0 ≤ offset)
    (hle : offset ≤ (ks.length : Int)) :
    consumeWith g ks offset length
        = consumeWith g ks offset ((ks.length : Int) - offset) ∧
      populateWith g ks offset length
        = populateWith g ks offset ((ks.length : Int) - offset) ∧
      lookupWith g ks offset length
        = lookupWith g ks offset ((ks.length : Int) - offset) := by
  have hcap : checkAndCapLengthForConsume (ks.length : Int) offset length
      = checkAndCapLengthForConsume (ks.length : Int) offset
          ((ks.length : Int) - offset) := by
    simp only [checkAndCapLengthForConsume, if_neg (not_lt.mpr h0), if_pos hneg]
    have hnn : ¬((ks.length : Int) - offset < 0) := by omega
    rw [if_neg hnn]
  exact ⟨by simp only [consumeWith, hcap], by simp only [populateWith, hcap],
    by simp only [lookupWith, hcap]⟩

theorem c10_negative_length_means_rest_of_batch_witness :
    consumeWith ([] : List Row) [[some 4], [some 5], [some 4]] 1 (-1)
      = consumeWith ([] : List Row) [[some 4], [some 5], [some 4]] 1 (3 - 1) :=
  (c10_negative_length_means_rest_of_batch [] [[some 4], [some 5], [some 4]] 1 (-1)
    (by decide) (by decide) (by decide)).1

/-- C9, counterexample.  The claim says every batch yields exactly one
segment covering all its rows; a zero-length batch yields no segment at
all (`GetSegments` returns an empty vector when `batch.length == 0`). -/
theorem c9_counterexample_empty_batch : (noKeysGetSegments 0).length ≠ 1 := by
  decide

/-- C9, amended.  For the no-keys segmenter, every non-empty batch
yields exactly one segment (offset 0, length = batch length, open end,
extends_previous true); an empty batch yields no segments. -/
theorem c9_no_keys_single_segment (batchLength : Nat) :
    noKeysGetSegments batchLength =
      if batchLength = 0 then []
      else [{ offset := 0, length := batchLength, isOpenEnd := true,
              extendsPrev := true }] := by
  by_cases h : batchLength = 0
  · simp [noKeysGetSegments, h]
  · simp only [noKeysGetSegments, if_neg h, MakeSegment, Nat.sub_zero]
    have : batchLength ≤ 0 + batchLength := by omega
    simp [this]

theorem segChain_ends_le {L start : Nat} {segs : List Segment}
    (h : SegChain L start segs) :
    start ≤ L ∧ ∀ s ∈ segs, s.offset + s.length ≤ L := by
  induction segs generalizing start with
  | nil =>
    rw [SegChain] at h
    exact ⟨Nat.le_of_eq h, by simp⟩
  | cons s rest ih =>
    rw [SegChain] at h
    obtain ⟨hoff, hpos, hrest⟩ := h
    rcases ih hrest with ⟨hle, hall⟩
    refine ⟨by omega, ?_⟩
    intro x hx
    rcases List.mem_cons.mp hx with rfl | hx'
    · omega
    · exact hall x hx'

theorem segChain_offset_pos {L start : Nat} {segs : List Segment}
    (h : SegChain L start segs) :
    ∀ t, 0 < t → t < segs.length → start < (segs.getD t default).offset := by
  induction segs generalizing start with
  | nil =>
    intro t ht hlen
    simp at hlen
  | cons s rest ih =>
    intro t ht hlen
    rw [SegChain] at h
    obtain ⟨hoff, hpos, hrest⟩ := h
    rcases t with _ | t'
    · omega
    · have hget : ((s :: rest).getD (t' + 1) default) = rest.getD t' default := rfl
      rw [hget]
      rcases Nat.eq_zero_or_pos t' with rfl | ht'
      · rcases rest with _ | ⟨s₂, rest₂⟩
        · simp at hlen
        · rw [SegChain] at hrest
          have : s₂.offset = s.offset + s.length := hrest.1
          rw [show ((s₂ :: rest₂).getD 0 default) = s₂ from rfl, this]
          omega
      · have := ih hrest t' ht' (by simpa using hlen)
        omega

theorem runBoundaries_of_iff {K : Type} [DecidableEq K] (ids : List Nat)
    (ks : List K) (n : Nat)
    (hiff : ∀ p q, p < n → q < n → (ids.get? p = ids.get? q ↔ ks.get? p = ks.get? q)) :
    ∀ segs : List Segment, (∀ s ∈ segs, s.offset < n) →
      RunBoundaries ids segs → RunBoundaries ks segs := by
  intro segs
  induction segs with
  | nil =>
    intro _ _
    exact trivial
  | cons s₁ rest ih =>
    intro hofs hrb
    rcases rest with _ | ⟨s₂, rest₂⟩
    · exact trivial
    · rw [RunBoundaries] at hrb ⊢
      obtain ⟨hne, hrb₂⟩ := hrb
      have h1 : s₁.offset < n := hofs s₁ (by simp)
      have h2 : s₂.offset < n := hofs s₂ (by simp)
      refine ⟨fun he => hne ((hiff s₂.offset s₁.offset h2 h1).mpr he), ?_⟩
      exact ih (fun x hx => hofs x (List.mem_cons_of_mem _ hx)) hrb₂

theorem segmentScanGo_spec (ids : List Nat) (ext : Bool) (L : Nat)
    (hL : L = ids.length) :
    ∀ (n co cursor : Nat), ids.length - cursor = n → co < cursor →
      cursor ≤ ids.length →
      (∀ a, co ≤ a → a < cursor → ids.get? a = ids.get? co) →
      SegChain L co (segmentScanGo ids L ext co cursor) ∧
        WithinEqual ids (segmentScanGo ids L ext co cursor) ∧
        RunBoundaries ids (segmentScanGo ids L ext co cursor) ∧
        (∀ s ∈ segmentScanGo ids L ext co cursor,
          s.extendsPrev = (if s.offset = 0 then ext else false)) ∧
        (∀ s ∈ segmentScanGo ids L ext co cursor,
          s.isOpenEnd = decide (L ≤ s.offset + s.length)) ∧
        segmentScanGo ids L ext co cursor ≠ [] ∧
        ((segmentScanGo ids L ext co cursor).getD 0 default).offset = co := by
  subst hL
  intro n
  induction n with
  | zero =>
    intro co cursor h0 hcc hclen hyp
    have hce : cursor = ids.length := by omega
    rw [segmentScanGo, dif_neg (by omega)]
    refine ⟨?_, ?_, ?_, ?_, ?_, ?_, ?_⟩
    · rw [SegChain]
      refine ⟨rfl, by show 0 < cursor - co; omega, ?_⟩
      rw [show (MakeSegment ids.length co (cursor - co)
          (if co = 0 then ext else false)).offset = co from rfl,
        show (MakeSegment ids.length co (cursor - co)
          (if co = 0 then ext else false)).length = cursor - co from rfl]
      rw [SegChain]
      omega
    · intro s hs a h1 h2
      rcases List.mem_singleton.mp hs with rfl
      rw [show (MakeSegment ids.length co (cursor - co)
          (if co = 0 then ext else false)).offset = co from rfl] at h1 h2 ⊢
      rw [show (MakeSegment ids.length co (cursor - co)
          (if co = 0 then ext else false)).length = cursor - co from rfl] at h2
      exact hyp a h1 (by omega)
    · exact trivial
    · intro s hs
      rcases List.mem_singleton.mp hs with rfl
      rfl
    · intro s hs
      rcases List.mem_singleton.mp hs with rfl
      rfl
    · simp
    · rfl
  | succ n ih =>
    intro co cursor hn hcc hclen hyp
    have hcl : cursor < ids.length := by omega
    rw [segmentScanGo, dif_pos hcl]
    by_cases heq : ids.getD cursor 0 = ids.getD co 0
    · rw [if_pos heq]
      apply ih co (cursor + 1) (by omega) (by omega) (by omega)
      intro a ha1 ha2
      rcases Nat.lt_or_ge a cursor with h | h
      · exact hyp a ha1 h
      · have hac : a = cursor := by omega
        subst hac
        rw [get?_eq_some_getD ids 0 hcl, get?_eq_some_getD ids 0 (by omega), heq]
    · rw [if_neg heq]
      have hrest := ih cursor (cursor + 1) (by omega) (by omega) (by omega)
        (fun a ha1 ha2 => by
          have hac : a = cursor := by omega
          subst hac
          rfl)
      obtain ⟨hch, hwe, hrb, hext, hoe, hne, hoff⟩ := hrest
      have hheado : (MakeSegment ids.length co (cursor - co)
          (if co = 0 then ext else false)).offset = co := rfl
      have hheadl : (MakeSegment ids.length co (cursor - co)
          (if co = 0 then ext else false)).length = cursor - co := rfl
      refine ⟨?_, ?_, ?_, ?_, ?_, ?_, ?_⟩
      · rw [SegChain, hheado, hheadl]
        refine ⟨rfl, by omega, ?_⟩
        rw [show co + (cursor - co) = cursor by omega]
        exact hch
      · intro s hs a h1 h2
        rcases List.mem_cons.mp hs with rfl | hs'
        · rw [hheado] at h1 ⊢
          rw [hheado, hheadl] at h2
          exact hyp a h1 (by omega)
        · exact hwe s hs' a h1 h2
      · rcases hsc : segmentScanGo ids ids.length ext cursor (cursor + 1)
          with _ | ⟨s₂, rest₂⟩
        · exact absurd hsc hne
        · rw [RunBoundaries]
          rw [hsc] at hrb hoff
        
          refine ⟨?_, hrb⟩
          have hs₂o : s₂.offset = cursor := hoff
          rw [hs₂o, hheado]
          intro hcon
          apply heq
          rw [get?_eq_some_getD ids 0 hcl, get?_eq_some_getD ids 0 (by omega)] at hcon
          exact Option.some.inj hcon
      · intro s hs
        rcases List.mem_cons.mp hs with rfl | hs'
        · rfl
        · exact hext s hs'
      · intro s hs
        rcases List.mem_cons.mp hs with rfl | hs'
        · rfl
        · exact hoe s hs'
      · simp
      · rw [show ((MakeSegment ids.length co (cursor - co)
            (if co = 0 then ext else false) ::
            segmentScanGo ids ids.length ext cursor (cursor + 1)).getD 0 default)
          = MakeSegment ids.length co (cursor - co)
            (if co = 0 then ext else false) from rfl]
        exact hheado

section C4Theorems

variable {K : Type} [DecidableEq K]

theorem firstNewKeys_length_le (g : List K) (ks : List K) :
    (firstNewKeys g ks).length ≤ ks.length := by
  induction ks generalizing g with
  | nil => simp [firstNewKeys]
  | cons k ks ih =>
    by_cases hk : k ∈ g
    · rw [firstNewKeys, if_pos hk]
      have := ih g
      simp only [List.length_cons]
      omega
    · rw [firstNewKeys, if_neg hk]
      have := ih (g ++ [k])
      simp only [List.length_cons, List.length_cons]
      omega

omit [DecidableEq K] in
theorem take_one_eq {ks : List K} (d : K) (h : ks ≠ []) :
    ks.take 1 = [ks.getD 0 d] := by
  rcases ks with _ | ⟨k, t⟩
  · exact absurd rfl h
  · rfl

omit [DecidableEq K] in
theorem getLast?_eq_getD {ks : List K} (d : K) (h : ks ≠ []) :
    ks.getLast? = some (ks.getD (ks.length - 1) d) := by
  rw [List.getLast?_eq_getElem?, ← List.get?_eq_getElem?]
  refine get?_eq_some_getD ks d ?_
  have : 0 < ks.length := List.length_pos.mpr h
  omega

theorem consume_get?_eq_iff (ks : List K) (d : K) {i j : Nat}
    (hi : i < ks.length) (hj : j < ks.length) :
    ((consume ([] : List K) ks).2.get? i = (consume ([] : List K) ks).2.get? j)
      ↔ (ks.get? i = ks.get? j) := by
  have hlen : (consume ([] : List K) ks).2.length = ks.length :=
    consume_snd_length _ _
  have e1 : (consume ([] : List K) ks).2.get? i
      = some ((consume ([] : List K) ks).2.getD i 0) :=
    get?_eq_some_getD _ 0 (by omega)
  have e2 : (consume ([] : List K) ks).2.get? j
      = some ((consume ([] : List K) ks).2.getD j 0) :=
    get?_eq_some_getD _ 0 (by omega)
  rw [e1, e2, get?_eq_some_getD ks d hi, get?_eq_some_getD ks d hj]
  constructor
  · intro h
    exact congrArg some
      ((consume_ids_eq_iff [] ks d hi hj).mp (Option.some.inj h))
  · intro h
    exact congrArg some
      ((consume_ids_eq_iff [] ks d hi hj).mpr (Option.some.inj h))

theorem segChain_pos {L start : Nat} {segs : List Segment}
    (h : SegChain L start segs) : ∀ s ∈ segs, 0 < s.length := by
  induction segs generalizing start with
  | nil => simp
  | cons s rest ih =>
    rw [SegChain] at h
    intro x hx
    rcases List.mem_cons.mp hx with rfl | hx'
    · exact h.2.1
    · exact ih h.2.2 x hx'

theorem anyKeys_of_empty (st : SegState K) {ks : List K} (h : ks.isEmpty = true) :
    anyKeysGetSegments st ks = (st, []) := by
  rw [anyKeysGetSegments, if_pos h]

theorem anyKeys_fst_of_ne (st : SegState K) {ks : List K} (h : ks.isEmpty = false) :
    (anyKeysGetSegments st ks).1
      = ⟨(consume ([] : List K) ks).1,
         (consume ([] : List K) ks).2.getD (ks.length - 1) 0⟩ := by
  rw [anyKeysGetSegments, if_neg (by simp [h])]

theorem anyKeys_snd_of_ne (st : SegState K) {ks : List K} (h : ks.isEmpty = false) :
    (anyKeysGetSegments st ks).2
      = segmentScanGo (consume ([] : List K) ks).2 ks.length
          (if st.saveGroupId ≠ kNoGroupId then
            decide ((consume st.grouper (ks.take 1)).2.getD 0 0 = st.saveGroupId)
          else true) 0 1 := by
  rw [anyKeysGetSegments, if_neg (by simp [h])]

theorem anyKeys_ext_none {st : SegState K} (hs : st.saveGroupId = kNoGroupId)
    (ks : List K) :
    (if st.saveGroupId ≠ kNoGroupId then
        decide ((consume st.grouper (ks.take 1)).2.getD 0 0 = st.saveGroupId)
      else true) = true := by
  rw [if_neg (by simp [hs])]

theorem anyKeys_ext_some {st : SegState K} {k : K} (hinv : SegInv st (some k))
    (ks : List K) (hne : ks ≠ []) (d : K) :
    (if st.saveGroupId ≠ kNoGroupId then
        decide ((consume st.grouper (ks.take 1)).2.getD 0 0 = st.saveGroupId)
      else true) = decide (ks.get? 0 = some k) := by
  obtain ⟨hnd, hlt, hget, hsub⟩ := hinv
  rw [if_pos (by omega)]
  rw [take_one_eq d hne, consume_cons]
  have hsnd : (consume (insertKey st.grouper (ks.getD 0 d)).1 ([] : List K)).2
      = [] := rfl
  rw [hsnd]
  have hid : ((insertKey st.grouper (ks.getD 0 d)).2 :: ([] : List Nat)).getD 0 0
      = (insertKey st.grouper (ks.getD 0 d)).2 := rfl
  show decide _ = _
  rw [hid]
  rw [get?_eq_some_getD ks d (List.length_pos.mpr hne)]
  rw [decide_eq_decide]
  by_cases hk0 : ks.getD 0 d ∈ st.grouper
  · rcases Option.isSome_iff_exists.mp (groupIdOf?_isSome.mpr hk0) with ⟨i, hi⟩
    rw [insertKey_of_some hi]
    constructor
    · intro hisave
      have h1 : st.grouper.get? i = some (ks.getD 0 d) := groupIdOf?_get? hi
      rw [show ((st.grouper, i) : List K × Nat).2 = i from rfl] at hisave
      rw [hisave] at h1
      rw [hget] at h1
      exact congrArg some (Option.some.inj h1).symm
    · intro hk
      have hkk : ks.getD 0 d = k := Option.some.inj hk
      rw [hkk] at hi
      have h2 : groupIdOf? st.grouper k = some st.saveGroupId :=
        groupIdOf?_of_nodup_get? hnd hget
      rw [h2] at hi
      exact (Option.some.inj hi).symm
  · rw [insertKey_of_not_mem hk0]
    constructor
    · intro hisave
      rw [show ((st.grouper ++ [ks.getD 0 d], st.grouper.length)
          : List K × Nat).2 = st.grouper.length from rfl] at hisave
      omega
    · intro hk
      have hkk : ks.getD 0 d = k := Option.some.inj hk
      have hkmem : k ∈ st.grouper := List.get?_mem hget
      rw [hkk] at hk0
      exact absurd hkmem hk0

theorem anyKeys_step_inv {st : SegState K} {prev : Option K} (ks : List K)
    (hinv : SegInv st prev) (hlen : ks.length < kNoGroupId) :
    SegInv (anyKeysGetSegments st ks).1
      (if ks.isEmpty then prev else ks.getLast?) := by
  by_cases hks : ks.isEmpty = true
  · rw [if_pos hks, anyKeys_of_empty st hks]
    exact hinv
  · have hksf : ks.isEmpty = false := by
      rcases h : ks.isEmpty
      · rfl
      · exact absurd h hks
    have hne : ks ≠ [] := fun e => by
      rw [e] at hksf
      exact Bool.noConfusion hksf
    have hd : 0 < ks.length := List.length_pos.mpr hne
    rcases ks with _ | ⟨k₀, kt⟩
    · exact absurd rfl hne
    · rw [if_neg (by simp [hksf]), anyKeys_fst_of_ne st hksf,
        getLast?_eq_getD k₀ hne]
      obtain ⟨a, hgo, hgetD⟩ :=
        consume_getD_some ([] : List K) (k₀ :: kt) k₀
          (i := (k₀ :: kt).length - 1) (by omega)
      have hulen : (consume ([] : List K) (k₀ :: kt)).1.length ≤ (k₀ :: kt).length := by
        rw [consume_fst_eq, List.nil_append]
        exact firstNewKeys_length_le [] (k₀ :: kt)
      have halt : a < (consume ([] : List K) (k₀ :: kt)).1.length := groupIdOf?_lt hgo
      refine ⟨consume_fst_nodup (k₀ :: kt) List.nodup_nil, ?_, ?_, ?_⟩
      · show (consume ([] : List K) (k₀ :: kt)).2.getD ((k₀ :: kt).length - 1) 0
          < (consume ([] : List K) (k₀ :: kt)).1.length
        rw [hgetD]
        exact halt
      · show (consume ([] : List K) (k₀ :: kt)).1.get?
            ((consume ([] : List K) (k₀ :: kt)).2.getD ((k₀ :: kt).length - 1) 0)
          = some ((k₀ :: kt).getD ((k₀ :: kt).length - 1) k₀)
        rw [hgetD]
        exact groupIdOf?_get? hgo
      · show (consume ([] : List K) (k₀ :: kt)).2.getD ((k₀ :: kt).length - 1) 0
          < kNoGroupId
        rw [hgetD]
        omega

theorem anyKeys_step_spec {st : SegState K} {prev : Option K} (ks : List K)
    (hinv : SegInv st prev) (hlen : ks.length < kNoGroupId) :
    SegsSpec prev ks (anyKeysGetSegments st ks).2 := by
  by_cases hks : ks.isEmpty = true
  · have hkse : ks = [] := by
      rcases ks with _ | ⟨k, t⟩
      · rfl
      · exact Bool.noConfusion hks
    subst hkse
    rw [anyKeys_of_empty st hks]
    refine ⟨rfl, ?_, trivial, ?_, ?_, ?_⟩
    · intro s hs
      simp at hs
    · intro s hs
      simp at hs
    · intro t ht hlen'
      simp at hlen'
    · intro h
      exact absurd rfl h
  · have hksf : ks.isEmpty = false := by
      rcases h : ks.isEmpty
      · rfl
      · exact absurd h hks
    have hne : ks ≠ [] := fun e => by
      rw [e] at hksf
      exact Bool.noConfusion hksf
    have hkpos : 0 < ks.length := List.length_pos.mpr hne
    have hd : K := ks.head hne
    rw [anyKeys_snd_of_ne st hksf]
    have hidslen : ks.length = (consume ([] : List K) ks).2.length :=
      (consume_snd_length ([] : List K) ks).symm
    obtain ⟨hch, hwe, hrb, hext, hoe, hsne, hoff⟩ :=
      segmentScanGo_spec (consume ([] : List K) ks).2
        (if st.saveGroupId ≠ kNoGroupId then
          decide ((consume st.grouper (ks.take 1)).2.getD 0 0 = st.saveGroupId)
        else true) ks.length hidslen
        ((consume ([] : List K) ks).2.length - 1) 0 1 rfl (by omega)
        (by omega)
        (fun a ha1 ha2 => by
          have : a = 0 := by omega
          subst this
          rfl)
    have hends := segChain_ends_le hch
    have hpos := segChain_pos hch
    refine ⟨hch, ?_, ?_, ?_, ?_, ?_⟩
    · intro s hs a h1 h2
      have hsend := hends.2 s hs
      have han : a < ks.length := by omega
      have hon : s.offset < ks.length := by omega
      exact (consume_get?_eq_iff ks (ks.head hne) han hon).mp (hwe s hs a h1 h2)
    · refine runBoundaries_of_iff (consume ([] : List K) ks).2 ks ks.length
        (fun p q hp hq => consume_get?_eq_iff ks (ks.head hne) hp hq) _ ?_ hrb
      intro s hs
      have h1 := hends.2 s hs
      have h2 := hpos s hs
      omega
    · intro s hs
      rw [hoe s hs]
      have h1 := hends.2 s hs
      constructor
      · intro h
        have := of_decide_eq_true h
        omega
      · intro h
        exact decide_eq_true_eq.mpr (by omega)
    · intro t ht hlt
      have hmem : (segmentScanGo (consume ([] : List K) ks).2 ks.length
          (if st.saveGroupId ≠ kNoGroupId then
            decide ((consume st.grouper (ks.take 1)).2.getD 0 0 = st.saveGroupId)
          else true) 0 1).getD t default
          ∈ segmentScanGo (consume ([] : List K) ks).2 ks.length
            (if st.saveGroupId ≠ kNoGroupId then
              decide ((consume st.grouper (ks.take 1)).2.getD 0 0 = st.saveGroupId)
            else true) 0 1 :=
        List.get?_mem (get?_eq_some_getD _ default hlt)
      rw [hext _ hmem, if_neg ?_]
      have := segChain_offset_pos hch t ht hlt
      omega
    · intro hne'
      have hmem : (segmentScanGo (consume ([] : List K) ks).2 ks.length
          (if st.saveGroupId ≠ kNoGroupId then
            decide ((consume st.grouper (ks.take 1)).2.getD 0 0 = st.saveGroupId)
          else true) 0 1).getD 0 default
          ∈ segmentScanGo (consume ([] : List K) ks).2 ks.length
            (if st.saveGroupId ≠ kNoGroupId then
              decide ((consume st.grouper (ks.take 1)).2.getD 0 0 = st.saveGroupId)
            else true) 0 1 :=
        List.get?_mem (get?_eq_some_getD _ default
          (List.length_pos.mpr hne'))
      rw [hext _ hmem, hoff, if_pos rfl]
      rcases prev with _ | k
      · obtain ⟨hg, hs⟩ := hinv
        exact anyKeys_ext_none hs ks
      · exact anyKeys_ext_some hinv ks hne (ks.head hne)

theorem runSegmenter_spec (bss : List (List K)) :
    ∀ (st : SegState K) (prev : Option K), SegInv st prev →
      (∀ bs ∈ bss, bs.length < kNoGroupId) →
      ∀ b, b < bss.length →
        SegsSpec (lastKeyAcc prev (bss.take b)) (bss.getD b [])
          ((runSegmenter st bss).2.getD b []) := by
  induction bss with
  | nil =>
    intro st prev hinv hlen b hb
    simp at hb
  | cons bs rest ih =>
    intro st prev hinv hlen b hb
    rcases b with _ | b'
    · rw [List.take_zero, lastKeyAcc]
      rw [show (bs :: rest).getD 0 [] = bs from rfl]
      rw [show (runSegmenter st (bs :: rest)).2.getD 0 []
          = (anyKeysGetSegments st bs).2 from rfl]
      exact anyKeys_step_spec bs hinv (hlen bs (List.mem_cons_self _ _))
    · rw [show (bs :: rest).take (b' + 1) = bs :: rest.take b' from rfl,
        lastKeyAcc]
      rw [show (bs :: rest).getD (b' + 1) [] = rest.getD b' [] from rfl]
      rw [show (runSegmenter st (bs :: rest)).2.getD (b' + 1) []
          = (runSegmenter (anyKeysGetSegments st bs).1 rest).2.getD b' []
          from rfl]
      exact ih (anyKeysGetSegments st bs).1
        (if bs.isEmpty then prev else bs.getLast?)
        (anyKeys_step_inv bs hinv (hlen bs (List.mem_cons_self _ _)))
        (fun x hx => hlen x (List.mem_cons_of_mem _ hx))
        b' (by simpa using hb)

end C4Theorems

/-- C4.  For the general (any-keys) segmenter fed a sequence of batches:
each batch's emitted segments contiguously cover the batch and split it
into maximal runs of equal-keyed rows; a segment's `is_open_end` is true
iff its offset plus its length equals the batch length; and
`extends_previous` is false on every segment but a batch's first, where
it equals whether the first key equals the last key of the preceding
non-empty batch (true by convention when there is none).  Batches are
assumed shorter than the `kNoGroupId` sentinel (the uint32 id space). -/
theorem c4_any_keys_segmenter (bss : List (List Row))
    (hlen : ∀ bs ∈ bss, bs.length < kNoGroupId) (b : Nat) (hb : b < bss.length) :
    SegsSpec (lastKeyAcc none (bss.take b)) (bss.getD b [])
      ((runSegmenter (initialSegState (K := Row)) bss).2.getD b []) :=
  runSegmenter_spec bss initialSegState none ⟨rfl, rfl⟩ hlen b hb

theorem c4_any_keys_segmenter_witness :
    SegsSpec (lastKeyAcc none ((([[[some 1]], [[some 1]], [[some 2]]] :
        List (List Row))).take 1))
      (([[[some 1]], [[some 1]], [[some 2]]] : List (List Row)).getD 1 [])
      ((runSegmenter (initialSegState (K := Row))
        [[[some 1]], [[some 1]], [[some 2]]]).2.getD 1 []) :=
  c4_any_keys_segmenter [[[some 1]], [[some 1]], [[some 2]]]
    (by decide) 1 (by decide)

end ArrowGrouper
